import Mathlib

/-!
Shallow embedding of the migration
`opentakserver/migrations/versions/20260205_split_duplicate_euds_and_add_unique_constraints.py`.

Strings are modelled as `List Char` (the character sequence of a Python/SQL
string), tables as lists of rows, and the migration's data-manipulation
statements as pure functions on an explicit store state `DB`.  The
`ALTER TABLE ... ADD/DROP CONSTRAINT` statements touch no data rows and are
not part of the data-state transition.  The serial `id` column of `euds`
(read as `eud_row[0]` but never used, and auto-generated on insert) is not
modelled.

The file is organised as: all definitions first, then all theorems.
-/

namespace OTS

/-- A SQL/Python string, as its list of characters. -/
abbrev Str := List Char

/-- The fixed separator token `'::dup::'` used to build clone identifiers. -/
def sep : Str := [':', ':', 'd', 'u', 'p', ':', ':']

/-- The decimal digit character for `n` (`n < 10`); how Python renders each
digit of an integer id inside the f-string `f"{eud_uid}::dup::{cert_id}"`. -/
def digitChar : Nat → Char
  | 0 => '0' | 1 => '1' | 2 => '2' | 3 => '3' | 4 => '4'
  | 5 => '5' | 6 => '6' | 7 => '7' | 8 => '8' | _ => '9'

/-- Fuel-driven decimal rendering of a natural number (most significant digit
first), structural so that it reduces in the kernel. -/
def natReprAux : Nat → Nat → Str
  | 0, _ => []
  | fuel + 1, n =>
    if n < 10 then [digitChar n] else natReprAux fuel (n / 10) ++ [digitChar (n % 10)]

/-- Decimal rendering of a natural number, as Python's `str` renders an id. -/
def natRepr (n : Nat) : Str := natReprAux (n + 1) n

/-- A character is a decimal digit. -/
def isDigitCh (c : Char) : Prop := 48 ≤ c.toNat ∧ c.toNat ≤ 57

instance (c : Char) : Decidable (isDigitCh c) := by unfold isDigitCh; infer_instance

/-- Reads a digit string back to the number it denotes. -/
def digitsVal (s : Str) : Nat := s.foldl (fun a c => a * 10 + (c.toNat - 48)) 0

/-- Clone-identifier derivation: the Python expression
`f"{eud_uid}::dup::{cert_id}"` (resp. `f"{creator_uid}::dup::{pkg_id}"`). -/
def derive (orig : Str) (recId : Nat) : Str := orig ++ sep ++ natRepr recId

/-- Boolean digit test. -/
def isDigitB (c : Char) : Bool := decide (isDigitCh c)

/-- The maximal all-digit suffix of a string. -/
def digitSuffix (s : Str) : Str := (s.reverse.takeWhile isDigitB).reverse

/-- Index (0-based) of the first occurrence of `'::dup::'` in `s`, if any:
SQL's `POSITION('::dup::' IN s)` minus one. -/
def firstSepPos : Str → Option Nat
  | [] => none
  | c :: t => if sep.isPrefixOf (c :: t) then some 0 else (firstSepPos t).map (· + 1)

/-- SQL's `s LIKE '%::dup::%'`. -/
def hasSep (s : Str) : Bool := (firstSepPos s).isSome

/-- SQL's `SUBSTRING(s FROM 1 FOR POSITION('::dup::' IN s) - 1)`: the part of
`s` strictly before the first occurrence of the separator (the whole string
when the separator does not occur, in which case `POSITION` is 0). -/
def stripAtSep (s : Str) : Str :=
  match firstSepPos s with
  | some p => s.take p
  | none => s

/-- `s` has no two adjacent colons (in particular it can neither contain nor
help form the separator token). -/
def noDC (s : Str) : Prop := ¬ ([':', ':'] <:+: s)

instance (s : Str) : Decidable (noDC s) := by unfold noDC; exact inferInstance

/-- A row of the `euds` table: the string key `uid` plus the attribute
columns the migration copies when cloning. -/
structure Eud where
  uid : Str
  callsign : Str
  device : Str
  os : Str
  platform : Str
  version : Str
  phone_number : Str
  last_event_time : Str
  last_status : Str
  user_id : Str
  team_id : Str
  team_role : Str
  meshtastic_id : Str
  meshtastic_macaddr : Str
  last_meshtastic_publish : Str
deriving DecidableEq

/-- A row of the `certificates` table, restricted to the two columns the
migration reads or writes. -/
structure Certificate where
  id : Nat
  eud_uid : Option Str
deriving DecidableEq

/-- A row of the `data_packages` table, restricted to the two columns the
migration reads or writes. -/
structure DataPackage where
  id : Nat
  creator_uid : Option Str
deriving DecidableEq

/-- The store state: the three tables the migration touches. -/
structure DB where
  euds : List Eud
  certificates : List Certificate
  data_packages : List DataPackage
deriving DecidableEq

/-- `array_agg(id ORDER BY id)`: ascending sort of the aggregated ids. -/
def sortIds (l : List Nat) : List Nat := l.insertionSort (· ≤ ·)

/-- Number of rows whose foreign-key column holds the non-null value `v`. -/
def refCount (fks : List (Option Str)) (v : Str) : Nat :=
  fks.countP (fun f => decide (f = some v))

/-- The non-null foreign-key values held by more than one row:
`GROUP BY ... HAVING count(*) > 1` on the non-null values. -/
def dupValues (fks : List (Option Str)) : List Str :=
  (fks.filterMap id).dedup.filter (fun v => decide (2 ≤ refCount fks v))

/-- `array_agg(id ORDER BY id)` for the certificates referencing `v`. -/
def certGroup (certs : List Certificate) (v : Str) : List Nat :=
  sortIds ((certs.filter (fun c => decide (c.eud_uid = some v))).map (fun c => c.id))

/-- The result set of the duplicate-certificates query: one `(eud_uid,
cert_ids)` row per duplicated value. -/
def certGroups (certs : List Certificate) : List (Str × List Nat) :=
  (dupValues (certs.map (fun c => c.eud_uid))).map (fun v => (v, certGroup certs v))

/-- `array_agg(id ORDER BY id)` for the data_packages referencing `v`. -/
def pkgGroup (pkgs : List DataPackage) (v : Str) : List Nat :=
  sortIds ((pkgs.filter (fun p => decide (p.creator_uid = some v))).map (fun p => p.id))

/-- The result set of the duplicate-data_packages query. -/
def pkgGroups (pkgs : List DataPackage) : List (Str × List Nat) :=
  (dupValues (pkgs.map (fun p => p.creator_uid))).map (fun v => (v, pkgGroup pkgs v))

/-- `SELECT ... FROM euds WHERE uid = :uid` with `fetchone()`. -/
def findEud (euds : List Eud) (v : Str) : Option Eud :=
  euds.find? (fun e => decide (e.uid = v))

/-- `INSERT INTO euds ...`. -/
def insertEud (db : DB) (e : Eud) : DB := { db with euds := db.euds ++ [e] }

/-- `UPDATE certificates SET eud_uid = :new_uid WHERE id = :cert_id`. -/
def setCertUid (db : DB) (certId : Nat) (u : Str) : DB :=
  { db with certificates :=
      db.certificates.map (fun c => if c.id = certId then { c with eud_uid := some u } else c) }

/-- `UPDATE data_packages SET creator_uid = :new_uid WHERE id = :pkg_id`. -/
def setPkgUid (db : DB) (pkgId : Nat) (u : Str) : DB :=
  { db with data_packages :=
      db.data_packages.map (fun p => if p.id = pkgId then { p with creator_uid := some u } else p) }

/-- The row inserted by the clone `INSERT`: the derived uid together with
every attribute column copied from the original row. -/
def cloneEud (e : Eud) (newUid : Str) : Eud := { e with uid := newUid }

/-- Body of the certificates loop over `dup_cert_ids`: insert the cloned EUD,
then repoint the duplicate certificate at it.  No existence check. -/
def certCloneStep (eudRow : Eud) (v : Str) (db : DB) (certId : Nat) : DB :=
  setCertUid (insertEud db (cloneEud eudRow (derive v certId))) certId (derive v certId)

/-- One iteration of `for row in dup_certs`: fetch the original EUD; if it is
missing (`if eud_row:` false) do nothing, else clone-and-repoint every
certificate id after the first. -/
def processCertGroup (db : DB) (g : Str × List Nat) : DB :=
  match findEud db.euds g.1 with
  | none => db
  | some eudRow => (g.2.drop 1).foldl (certCloneStep eudRow g.1) db

/-- Step 1–2 of `upgrade()`: the whole certificates loop.  The duplicate
groups are computed once, up front, from the incoming state. -/
def certPhase (db : DB) : DB := (certGroups db.certificates).foldl processCertGroup db

/-- Body of the data_packages loop over `dup_pkg_ids`: insert the cloned EUD
only if no EUD with the derived uid exists yet, then repoint the duplicate
data_package at it. -/
def pkgCloneStep (eudRow : Eud) (v : Str) (db : DB) (pkgId : Nat) : DB :=
  let db' :=
    match findEud db.euds (derive v pkgId) with
    | some _ => db
    | none => insertEud db (cloneEud eudRow (derive v pkgId))
  setPkgUid db' pkgId (derive v pkgId)

/-- One iteration of `for row in dup_pkgs`. -/
def processPkgGroup (db : DB) (g : Str × List Nat) : DB :=
  match findEud db.euds g.1 with
  | none => db
  | some eudRow => (g.2.drop 1).foldl (pkgCloneStep eudRow g.1) db

/-- Step 3 of `upgrade()`: the whole data_packages loop. -/
def pkgPhase (db : DB) : DB := (pkgGroups db.data_packages).foldl processPkgGroup db

/-- The forward pass `upgrade()` as a data-state transition: certificates
loop, then data_packages loop.  Step 4 (`ADD CONSTRAINT`) changes no rows. -/
def upgrade (db : DB) : DB := pkgPhase (certPhase db)

/-- The per-value rewrite of the downgrade `UPDATE`s: values containing
`'::dup::'` are truncated at the first occurrence, others are untouched
(their rows do not match the `LIKE` filter). -/
def restoreFk (v : Str) : Str := if hasSep v then stripAtSep v else v

/-- `UPDATE certificates SET eud_uid = SUBSTRING(...) WHERE eud_uid LIKE
'%::dup::%'` (null values never match the filter). -/
def downgradeCerts (db : DB) : DB :=
  { db with certificates := db.certificates.map (fun c =>
      { c with eud_uid := c.eud_uid.map restoreFk }) }

/-- The corresponding `UPDATE data_packages` statement. -/
def downgradePkgs (db : DB) : DB :=
  { db with data_packages := db.data_packages.map (fun p =>
      { p with creator_uid := p.creator_uid.map restoreFk }) }

/-- `DELETE FROM euds WHERE uid LIKE '%::dup::%'`. -/
def deleteClonedEuds (db : DB) : DB :=
  { db with euds := db.euds.filter (fun e => ! hasSep e.uid) }

/-- The reversal `downgrade()` as a data-state transition: rewrite both
foreign-key columns, then delete the cloned EUDs.  The `DROP CONSTRAINT`
statements change no rows. -/
def downgrade (db : DB) : DB := deleteClonedEuds (downgradePkgs (downgradeCerts db))

/-- One primitive data-manipulation statement executed by `upgrade()`. -/
inductive MigOp where
  | addEud (e : Eud)
  | certFk (certId : Nat) (u : Str)
  | pkgFk (pkgId : Nat) (u : Str)
deriving DecidableEq

/-- Effect of one primitive statement on the store. -/
def applyOp (db : DB) : MigOp → DB
  | .addEud e => insertEud db e
  | .certFk i u => setCertUid db i u
  | .pkgFk i u => setPkgUid db i u

/-- The statement sequence issued while processing one certificate group
(state-independent within the group: insert, then update, per id). -/
def certGroupOps (db : DB) (g : Str × List Nat) : List MigOp :=
  match findEud db.euds g.1 with
  | none => []
  | some eudRow =>
    (g.2.drop 1).flatMap (fun c =>
      [.addEud (cloneEud eudRow (derive g.1 c)), .certFk c (derive g.1 c)])

/-- The statement sequence issued by the inner data_packages loop; whether
each insert is issued depends on the store state reached so far. -/
def pkgGroupOpsAux (eudRow : Eud) (v : Str) : DB → List Nat → List MigOp
  | _, [] => []
  | db, p :: ps =>
    (match findEud db.euds (derive v p) with
     | some _ => [MigOp.pkgFk p (derive v p)]
     | none => [MigOp.addEud (cloneEud eudRow (derive v p)), MigOp.pkgFk p (derive v p)]) ++
      pkgGroupOpsAux eudRow v (pkgCloneStep eudRow v db p) ps

/-- The statement sequence issued while processing one data_package group. -/
def pkgGroupOps (db : DB) (g : Str × List Nat) : List MigOp :=
  match findEud db.euds g.1 with
  | none => []
  | some eudRow => pkgGroupOpsAux eudRow g.1 db (g.2.drop 1)

/-- The statement sequence of the certificates loop over a list of groups. -/
def certPhaseOpsAux (db : DB) : List (Str × List Nat) → List MigOp
  | [] => []
  | g :: gs => certGroupOps db g ++ certPhaseOpsAux (processCertGroup db g) gs

/-- The statement sequence of the whole certificates loop. -/
def certPhaseOps (db : DB) : List MigOp := certPhaseOpsAux db (certGroups db.certificates)

/-- The statement sequence of the data_packages loop over a list of groups. -/
def pkgPhaseOpsAux (db : DB) : List (Str × List Nat) → List MigOp
  | [] => []
  | g :: gs => pkgGroupOps db g ++ pkgPhaseOpsAux (processPkgGroup db g) gs

/-- The statement sequence of the whole data_packages loop. -/
def pkgPhaseOps (db : DB) : List MigOp := pkgPhaseOpsAux db (pkgGroups db.data_packages)

/-- The statement sequence of the whole forward pass. -/
def upgradeOps (db : DB) : List MigOp := certPhaseOps db ++ pkgPhaseOps (certPhase db)

/-- Statement-at-a-time well-formedness: every foreign-key update targets a
uid for which an `euds` row exists at the moment the update executes. -/
def OpsWellFormed : DB → List MigOp → Prop
  | _, [] => True
  | db, op :: rest =>
    (match op with
     | .certFk _ u => (findEud db.euds u).isSome = true
     | .pkgFk _ u => (findEud db.euds u).isSome = true
     | .addEud _ => True) ∧ OpsWellFormed (applyOp db op) rest

/-- The euds table grew only by rows whose uid has the derived form. -/
def EudsOk (base cur : List Eud) : Prop :=
  ∃ l, cur = base ++ l ∧ ∀ x ∈ l, ∃ a b, x.uid = derive a b

/-- Every row of `cur` whose uid has the derived form `derive a b` is the
clone, with that uid, of the `euds` row of `db0` whose uid is `a`. -/
def cloneInv (db0 : DB) (cur : List Eud) : Prop :=
  ∀ x ∈ cur, ∀ a b, x.uid = derive a b → ∃ e, findEud db0.euds a = some e ∧ x = cloneEud e (derive a b)

/-- The repointing a certificates group performs on one row: rows whose id is
in the group's duplicate tail get the derived uid for their own id. -/
def certUpdOn (v : Str) (ids : List Nat) (c : Certificate) : Certificate :=
  if c.id ∈ ids then { c with eud_uid := some (derive v c.id) } else c

/-- The repointing a data_packages group performs on one row. -/
def pkgUpdOn (v : Str) (ids : List Nat) (p : DataPackage) : DataPackage :=
  if p.id ∈ ids then { p with creator_uid := some (derive v p.id) } else p

/-- Cumulative effect on one certificate row of processing the groups for the
values `vs`, each group decided (lookup and id list) against state `db`. -/
def certsAfter (db : DB) : List Str → Certificate → Certificate
  | [], c => c
  | v :: vs, c =>
    certsAfter db vs
      (if (findEud db.euds v).isSome then certUpdOn v ((certGroup db.certificates v).drop 1) c
       else c)

/-- Cumulative effect on one data_package row of processing the groups for
the values `vs`, each group decided against state `db`. -/
def pkgsAfter (db : DB) : List Str → DataPackage → DataPackage
  | [], p => p
  | v :: vs, p =>
    pkgsAfter db vs
      (if (findEud db.euds v).isSome then pkgUpdOn v ((pkgGroup db.data_packages v).drop 1) p
       else p)

/-- Closed-form final value of one certificate row after the certificates
loop, for stores with unique row ids and separator-free foreign keys: rows in
the duplicate tail of a group whose original EUD exists get the derived uid,
every other row is untouched. -/
def certFinal (db : DB) (c : Certificate) : Certificate :=
  match c.eud_uid with
  | none => c
  | some v =>
    if 2 ≤ refCount (db.certificates.map (fun x => x.eud_uid)) v
        ∧ (findEud db.euds v).isSome = true
        ∧ c.id ∈ (certGroup db.certificates v).drop 1
    then { c with eud_uid := some (derive v c.id) }
    else c

/-- Closed-form final value of one data_package row after the data_packages
loop (groups and lookups decided against the state `db` that loop starts
from). -/
def pkgFinal (db : DB) (p : DataPackage) : DataPackage :=
  match p.creator_uid with
  | none => p
  | some v =>
    if 2 ≤ refCount (db.data_packages.map (fun x => x.creator_uid)) v
        ∧ (findEud db.euds v).isSome = true
        ∧ p.id ∈ (pkgGroup db.data_packages v).drop 1
    then { p with creator_uid := some (derive v p.id) }
    else p

/-- No certificate or data_package references a separator-bearing (clone-form)
uid for which no `euds` row exists. -/
def danglingFree (db : DB) : Bool :=
  db.certificates.all (fun c =>
    match c.eud_uid with
    | none => true
    | some v => !hasSep v || (findEud db.euds v).isSome) &&
  db.data_packages.all (fun p =>
    match p.creator_uid with
    | none => true
    | some v => !hasSep v || (findEud db.euds v).isSome)

/-- Every non-null foreign-key value of the relation is held by at most one
row: the condition the `ADD CONSTRAINT ... UNIQUE` of step 4 requires. -/
def uniqueFks (fks : List (Option Str)) : Prop :=
  ∀ v : Str, refCount fks v ≤ 1

instance (fks : List (Option Str)) : Decidable (uniqueFks fks) := by
  have : uniqueFks fks ↔ ∀ f ∈ fks, ∀ v ∈ f.toList, refCount fks v ≤ 1 := by
    constructor
    · intro h f _ v _
      exact h v
    · intro h v
      by_cases hv : some v ∈ fks
      · exact h (some v) hv v (by simp)
      · have : refCount fks v = 0 := by
          unfold refCount
          rw [List.countP_eq_zero]
          intro f hf
          simp only [decide_eq_true_eq]
          intro hfv
          exact hv (hfv ▸ hf)
        omega
  exact decidable_of_iff' _ this


/-- Test fixture: an `euds` row with the given uid and blank attribute
columns. -/
def mkEud (uid : Str) : Eud :=
  ⟨uid, [], [], [], [], [], [], [], [], [], [], [], [], [], []⟩

/-- Fixture: two certificates share the value `'E'` but no `euds` row with
uid `'E'` exists. -/
def exMissingEud : DB := ⟨[], [⟨1, some ['E']⟩, ⟨2, some ['E']⟩], []⟩

/-- Fixture: each relation holds a duplicate group for `'E'` while no `euds`
row with uid `'E'` exists at either group's cloning time. -/
def exMissingBoth : DB :=
  ⟨[], [⟨1, some ['E']⟩, ⟨2, some ['E']⟩], [⟨4, some ['E']⟩, ⟨7, some ['E']⟩]⟩

/-- Fixture: an `euds` row whose uid is already of the derived form exists
before the forward pass runs. -/
def exPreDerived : DB :=
  ⟨[mkEud ['E'], mkEud (derive ['E'] 2)], [⟨1, some ['E']⟩, ⟨2, some ['E']⟩], []⟩

/-- Fixture: a foreign-key value `'A::dup:'` that contains no full
`'::dup::'` token but overlaps with an appended one. -/
def exBoundary : DB :=
  ⟨[mkEud ['A', ':', ':', 'd', 'u', 'p', ':']],
   [⟨1, some ['A', ':', ':', 'd', 'u', 'p', ':']⟩,
    ⟨2, some ['A', ':', ':', 'd', 'u', 'p', ':']⟩],
   []⟩

/-- Fixture: two certificates already reference the uid the data_packages
pass will derive for package 5, and their own `euds` row is missing on the
first run but produced by the first run's data_packages pass. -/
def exCrossPhase : DB :=
  ⟨[mkEud ['X']],
   [⟨1, some (derive ['X'] 5)⟩, ⟨2, some (derive ['X'] 5)⟩],
   [⟨3, some ['X']⟩, ⟨5, some ['X']⟩]⟩

/-- Fixture: a well-formed store with one duplicated value in each relation
and the referenced `euds` row present. -/
def exClean : DB :=
  ⟨[mkEud ['E']],
   [⟨1, some ['E']⟩, ⟨2, some ['E']⟩],
   [⟨4, some ['E']⟩, ⟨7, some ['E']⟩]⟩

/-! ## Theorems: decimal rendering and the derivation scheme -/

theorem digitChar_toNat {n : Nat} (h : n < 10) : (digitChar n).toNat = 48 + n := by
  interval_cases n <;> rfl

theorem digitChar_isDigit {n : Nat} (h : n < 10) : isDigitCh (digitChar n) := by
  interval_cases n <;> decide

theorem natReprAux_eq {fuel n : Nat} (h : n < fuel) :
    natReprAux fuel n =
      if n < 10 then [digitChar n] else natReprAux (fuel - 1) (n / 10) ++ [digitChar (n % 10)] := by
  cases fuel with
  | zero => omega
  | succ f => rfl

theorem natRepr_ne_nil (n : Nat) : natRepr n ≠ [] := by
  unfold natRepr
  rw [natReprAux_eq (Nat.lt_succ_self n)]
  split <;> simp

theorem natRepr_digits (n : Nat) : ∀ c ∈ natRepr n, isDigitCh c := by
  unfold natRepr
  generalize hf : n + 1 = fuel
  have hlt : n < fuel := by omega
  clear hf
  induction fuel generalizing n with
  | zero => omega
  | succ f ih =>
    intro c hc
    rw [natReprAux_eq hlt] at hc
    by_cases h10 : n < 10
    · simp [h10] at hc
      exact hc ▸ digitChar_isDigit h10
    · simp [h10] at hc
      rcases hc with hc | hc
      · exact ih (n / 10) (by omega) c hc
      · exact hc ▸ digitChar_isDigit (Nat.mod_lt _ (by omega))

theorem digitsVal_append_digit (s : Str) (c : Char) :
    digitsVal (s ++ [c]) = digitsVal s * 10 + (c.toNat - 48) := by
  unfold digitsVal
  rw [List.foldl_append]
  rfl

theorem digitsVal_natRepr (n : Nat) : digitsVal (natRepr n) = n := by
  unfold natRepr
  generalize hf : n + 1 = fuel
  have hlt : n < fuel := by omega
  clear hf
  induction fuel generalizing n with
  | zero => omega
  | succ f ih =>
    rw [natReprAux_eq hlt]
    by_cases h10 : n < 10
    · simp only [h10, if_true]
      show digitsVal ([] ++ [digitChar n]) = n
      rw [digitsVal_append_digit]
      simp [digitsVal, digitChar_toNat h10]
    · simp only [h10, if_false]
      have : n / 10 < f := by omega
      rw [show f + 1 - 1 = f from rfl, digitsVal_append_digit, ih (n / 10) this,
        digitChar_toNat (Nat.mod_lt _ (by omega))]
      omega

theorem natRepr_injective {a b : Nat} (h : natRepr a = natRepr b) : a = b := by
  have := digitsVal_natRepr a
  rw [h, digitsVal_natRepr] at this
  omega

theorem digitSuffix_derive (o : Str) (r : Nat) : digitSuffix (derive o r) = natRepr r := by
  unfold digitSuffix derive
  rw [show o ++ sep ++ natRepr r = o ++ (sep ++ natRepr r) by simp,
    List.reverse_append, List.reverse_append]
  have hdig : ∀ c ∈ (natRepr r).reverse, isDigitB c = true := by
    intro c hc
    simpa [isDigitB] using natRepr_digits r c (List.mem_reverse.mp hc)
  rw [show (natRepr r).reverse ++ sep.reverse ++ o.reverse
      = (natRepr r).reverse ++ (sep.reverse ++ o.reverse) by simp,
    List.takeWhile_append_of_pos hdig]
  have : (sep.reverse ++ o.reverse).takeWhile isDigitB = [] := by
    show ([':', ':', 'p', 'u', 'd', ':', ':'] ++ o.reverse).takeWhile isDigitB = []
    rfl
  rw [this]
  simp

theorem derive_injective {o₁ o₂ : Str} {r₁ r₂ : Nat}
    (h : derive o₁ r₁ = derive o₂ r₂) : o₁ = o₂ ∧ r₁ = r₂ := by
  have hd : natRepr r₁ = natRepr r₂ := by
    rw [← digitSuffix_derive o₁ r₁, ← digitSuffix_derive o₂ r₂, h]
  have hr : r₁ = r₂ := natRepr_injective hd
  subst hr
  refine ⟨?_, rfl⟩
  unfold derive at h
  rw [show o₁ ++ sep ++ natRepr r₁ = o₁ ++ (sep ++ natRepr r₁) by simp,
    show o₂ ++ sep ++ natRepr r₁ = o₂ ++ (sep ++ natRepr r₁) by simp] at h
  exact List.append_cancel_right h

/-! ## Theorems: first-occurrence structure of the separator -/

theorem hasSep_iff {s : Str} : hasSep s = true ↔ sep <:+: s := by
  induction s with
  | nil => simp [hasSep, firstSepPos, sep]
  | cons c t ih =>
    unfold hasSep firstSepPos
    by_cases h : sep.isPrefixOf (c :: t)
    · rw [if_pos h]
      simp only [Option.isSome_some, true_iff]
      exact (List.isPrefixOf_iff_prefix.mp h).isInfix
    · rw [if_neg h, Option.isSome_map']
      rw [show ((firstSepPos t).isSome = true) = (hasSep t = true) from rfl, ih,
        List.infix_cons_iff]
      constructor
      · exact Or.inr
      · rintro (hp | hi)
        · exact absurd (List.isPrefixOf_iff_prefix.mpr hp) h
        · exact hi

theorem noDC_tail {c : Char} {t : Str} (h : noDC (c :: t)) : noDC t :=
  fun hi => h (List.infix_cons hi)

theorem firstSepPos_noDC {s : Str} (h : noDC s) : firstSepPos s = none := by
  induction s with
  | nil => rfl
  | cons c t ih =>
    rw [firstSepPos, if_neg, ih (noDC_tail h), Option.map_none']
    intro hpre
    rcases List.isPrefixOf_iff_prefix.mp hpre with ⟨u, hu⟩
    refine h ⟨[], ['d', 'u', 'p', ':', ':'] ++ u, ?_⟩
    simpa [sep] using hu

theorem hasSep_noDC {s : Str} (h : noDC s) : hasSep s = false := by
  rw [hasSep, firstSepPos_noDC h]
  rfl

theorem firstSepPos_append_sep {v : Str} (hv : noDC v) (t : Str) :
    firstSepPos (v ++ (sep ++ t)) = some v.length := by
  induction v with
  | nil =>
    have hpre : sep.isPrefixOf (sep ++ t) = true :=
      List.isPrefixOf_iff_prefix.mpr (List.prefix_append sep t)
    rw [List.nil_append,
      show sep ++ t = ':' :: ([':', 'd', 'u', 'p', ':', ':'] ++ t) from rfl, firstSepPos]
    rw [show ':' :: ([':', 'd', 'u', 'p', ':', ':'] ++ t) = sep ++ t from rfl, if_pos hpre]
    rfl
  | cons c t' ih =>
    rw [List.cons_append, firstSepPos, if_neg, ih (noDC_tail hv)]
    · rfl
    · intro hpre
      rcases List.isPrefixOf_iff_prefix.mp hpre with ⟨u, hu⟩
      cases t' with
      | nil => simp [sep] at hu
      | cons c₂ t₂ =>
        have hc : c = ':' ∧ c₂ = ':' := by
          rw [show sep ++ u = ':' :: ':' :: (['d', 'u', 'p', ':', ':'] ++ u) from rfl] at hu
          simp only [List.cons_append, List.cons.injEq] at hu
          exact ⟨hu.1.symm, hu.2.1.symm⟩
        exact hv ⟨[], t₂, by simp [hc.1, hc.2]⟩

theorem stripAtSep_derive {v : Str} (hv : noDC v) (r : Nat) : stripAtSep (derive v r) = v := by
  rw [stripAtSep, derive, show v ++ sep ++ natRepr r = v ++ (sep ++ natRepr r) by simp,
    firstSepPos_append_sep hv]
  exact List.take_left v _

theorem hasSep_derive (v : Str) (r : Nat) : hasSep (derive v r) = true := by
  rw [hasSep_iff, derive]
  exact ⟨v, natRepr r, rfl⟩

theorem firstSepPos_min {s : Str} {p q : Nat} (h : firstSepPos s = some p)
    (hq : sep.isPrefixOf (s.drop q) = true) : p ≤ q := by
  induction s generalizing p q with
  | nil => simp [firstSepPos] at h
  | cons c t ih =>
    rw [firstSepPos] at h
    by_cases hpre : sep.isPrefixOf (c :: t)
    · rw [if_pos hpre] at h
      injection h with h0
      omega
    · rw [if_neg hpre] at h
      rcases Option.map_eq_some'.mp h with ⟨p', hp', rfl⟩
      cases q with
      | zero => exact absurd hq hpre
      | succ q' =>
        have := ih hp' (by simpa using hq)
        omega

theorem isPrefixOf_drop_of_split {s a b : Str} (h : s = a ++ sep ++ b) :
    sep.isPrefixOf (s.drop a.length) = true := by
  subst h
  rw [show a ++ sep ++ b = a ++ (sep ++ b) by simp, List.drop_left]
  exact List.isPrefixOf_iff_prefix.mpr (List.prefix_append sep b)

theorem split_of_firstSepPos {s : Str} {p : Nat} (h : firstSepPos s = some p) :
    s.take p ++ sep ++ s.drop (p + 7) = s ∧ (s.take p).length = p := by
  induction s generalizing p with
  | nil => simp [firstSepPos] at h
  | cons c t ih =>
    rw [firstSepPos] at h
    by_cases hpre : sep.isPrefixOf (c :: t)
    · rw [if_pos hpre] at h
      obtain rfl : p = 0 := by injection h with h0; omega
      rcases List.isPrefixOf_iff_prefix.mp hpre with ⟨u, hu⟩
      constructor
      · rw [List.take_zero, List.nil_append, ← hu, List.drop_left' (by simp [sep])]
      · rfl
    · rw [if_neg hpre] at h
      rcases Option.map_eq_some'.mp h with ⟨p', hp', rfl⟩
      rcases ih hp' with ⟨hsplit, hlen⟩
      constructor
      · rw [show p' + 1 + 7 = p' + 7 + 1 by omega]
        simpa using hsplit
      · simpa using hlen


/-! ## Theorems: primitive statements and the inner loops -/

theorem findEud_append (l₁ l₂ : List Eud) (v : Str) :
    findEud (l₁ ++ l₂) v = (findEud l₁ v).or (findEud l₂ v) := by
  unfold findEud
  exact List.find?_append

theorem findEud_append_sepFree {base l : List Eud} {v : Str}
    (hv : hasSep v = false) (hl : ∀ x ∈ l, ∃ a b, x.uid = derive a b) :
    findEud (base ++ l) v = findEud base v := by
  rw [findEud_append]
  have hnone : findEud l v = none := by
    unfold findEud
    rw [List.find?_eq_none]
    intro x hx
    simp only [decide_eq_true_eq]
    intro hxv
    rcases hl x hx with ⟨a, b, hab⟩
    rw [hxv] at hab
    rw [hab, hasSep_derive] at hv
    exact Bool.noConfusion hv
  rw [hnone, Option.or_none]

theorem eudsOk_refl (l : List Eud) : EudsOk l l := ⟨[], by simp, by simp⟩

theorem eudsOk_trans {a b c : List Eud} (h₁ : EudsOk a b) (h₂ : EudsOk b c) : EudsOk a c := by
  rcases h₁ with ⟨l₁, rfl, hl₁⟩
  rcases h₂ with ⟨l₂, rfl, hl₂⟩
  refine ⟨l₁ ++ l₂, by simp, ?_⟩
  intro x hx
  rcases List.mem_append.mp hx with h | h
  · exact hl₁ x h
  · exact hl₂ x h

theorem eudsOk_mem {a b : List Eud} (h : EudsOk a b) {x : Eud} (hx : x ∈ a) : x ∈ b := by
  rcases h with ⟨l, rfl, _⟩
  exact List.mem_append_left l hx

theorem eudsOk_findEud {a b : List Eud} (h : EudsOk a b) {v : Str} (hv : hasSep v = false) :
    findEud b v = findEud a v := by
  rcases h with ⟨l, rfl, hl⟩
  exact findEud_append_sepFree hv hl

theorem certCloneStep_certificates (e : Eud) (v : Str) (db : DB) (i : Nat) :
    (certCloneStep e v db i).certificates =
      db.certificates.map
        (fun c => if c.id = i then { c with eud_uid := some (derive v i) } else c) := rfl

theorem certCloneStep_euds (e : Eud) (v : Str) (db : DB) (i : Nat) :
    (certCloneStep e v db i).euds = db.euds ++ [cloneEud e (derive v i)] := rfl

theorem certCloneStep_pkgs (e : Eud) (v : Str) (db : DB) (i : Nat) :
    (certCloneStep e v db i).data_packages = db.data_packages := rfl

theorem pkgCloneStep_pkgs (e : Eud) (v : Str) (db : DB) (i : Nat) :
    (pkgCloneStep e v db i).data_packages =
      db.data_packages.map
        (fun p => if p.id = i then { p with creator_uid := some (derive v i) } else p) := by
  unfold pkgCloneStep
  cases h : findEud db.euds (derive v i) <;> simp [h, setPkgUid, insertEud]

theorem pkgCloneStep_certificates (e : Eud) (v : Str) (db : DB) (i : Nat) :
    (pkgCloneStep e v db i).certificates = db.certificates := by
  unfold pkgCloneStep
  cases h : findEud db.euds (derive v i) <;> simp [h, setPkgUid, insertEud]

theorem pkgCloneStep_euds (e : Eud) (v : Str) (db : DB) (i : Nat) :
    (pkgCloneStep e v db i).euds = db.euds ∨
      (pkgCloneStep e v db i).euds = db.euds ++ [cloneEud e (derive v i)] := by
  unfold pkgCloneStep
  cases h : findEud db.euds (derive v i) <;> simp [h, setPkgUid, insertEud]

theorem certUpdOn_after_set (v : Str) (i : Nat) (is : List Nat) (c : Certificate) :
    certUpdOn v is (if c.id = i then { c with eud_uid := some (derive v i) } else c)
      = certUpdOn v (i :: is) c := by
  cases c with
  | mk cid fk =>
    by_cases hi : cid = i
    · subst hi
      by_cases hin : cid ∈ is <;> simp [certUpdOn, hin]
    · by_cases hin : cid ∈ is <;> simp [certUpdOn, hi, hin]

theorem pkgUpdOn_after_set (v : Str) (i : Nat) (is : List Nat) (p : DataPackage) :
    pkgUpdOn v is (if p.id = i then { p with creator_uid := some (derive v i) } else p)
      = pkgUpdOn v (i :: is) p := by
  cases p with
  | mk pid fk =>
    by_cases hi : pid = i
    · subst hi
      by_cases hin : pid ∈ is <;> simp [pkgUpdOn, hin]
    · by_cases hin : pid ∈ is <;> simp [pkgUpdOn, hi, hin]

theorem certInner_certificates (e : Eud) (v : Str) (ids : List Nat) :
    ∀ db : DB, (ids.foldl (certCloneStep e v) db).certificates
      = db.certificates.map (certUpdOn v ids) := by
  induction ids with
  | nil =>
    intro db
    rw [List.map_id'' (fun c => by simp [certUpdOn])]
    rfl
  | cons i is ih =>
    intro db
    rw [List.foldl_cons, ih, certCloneStep_certificates, List.map_map]
    refine List.map_congr_left ?_
    intro c _
    exact certUpdOn_after_set v i is c

theorem certInner_euds (e : Eud) (v : Str) (ids : List Nat) :
    ∀ db : DB, (ids.foldl (certCloneStep e v) db).euds
      = db.euds ++ ids.map (fun i => cloneEud e (derive v i)) := by
  induction ids with
  | nil => intro db; simp
  | cons i is ih =>
    intro db
    rw [List.foldl_cons, ih, certCloneStep_euds]
    simp

theorem certInner_pkgs (e : Eud) (v : Str) (ids : List Nat) :
    ∀ db : DB, (ids.foldl (certCloneStep e v) db).data_packages = db.data_packages := by
  induction ids with
  | nil => intro db; rfl
  | cons i is ih =>
    intro db
    rw [List.foldl_cons, ih, certCloneStep_pkgs]

theorem pkgInner_pkgs (e : Eud) (v : Str) (ids : List Nat) :
    ∀ db : DB, (ids.foldl (pkgCloneStep e v) db).data_packages
      = db.data_packages.map (pkgUpdOn v ids) := by
  induction ids with
  | nil =>
    intro db
    rw [List.map_id'' (fun p => by simp [pkgUpdOn])]
    rfl
  | cons i is ih =>
    intro db
    rw [List.foldl_cons, ih, pkgCloneStep_pkgs, List.map_map]
    refine List.map_congr_left ?_
    intro p _
    exact pkgUpdOn_after_set v i is p

theorem pkgInner_certificates (e : Eud) (v : Str) (ids : List Nat) :
    ∀ db : DB, (ids.foldl (pkgCloneStep e v) db).certificates = db.certificates := by
  induction ids with
  | nil => intro db; rfl
  | cons i is ih =>
    intro db
    rw [List.foldl_cons, ih, pkgCloneStep_certificates]

theorem pkgInner_euds (e : Eud) (v : Str) (ids : List Nat) :
    ∀ db : DB, ∃ l, (ids.foldl (pkgCloneStep e v) db).euds = db.euds ++ l
      ∧ ∀ x ∈ l, ∃ i ∈ ids, x = cloneEud e (derive v i) := by
  induction ids with
  | nil =>
    intro db
    exact ⟨[], by simp, by simp⟩
  | cons i is ih =>
    intro db
    rw [List.foldl_cons]
    rcases ih (pkgCloneStep e v db i) with ⟨l, hl, hmem⟩
    rcases pkgCloneStep_euds e v db i with h | h
    · refine ⟨l, by rw [hl, h], ?_⟩
      intro x hx
      rcases hmem x hx with ⟨j, hj, hxj⟩
      exact ⟨j, List.mem_cons_of_mem i hj, hxj⟩
    · refine ⟨cloneEud e (derive v i) :: l, by rw [hl, h]; simp, ?_⟩
      intro x hx
      rcases List.mem_cons.mp hx with rfl | hx'
      · exact ⟨i, List.mem_cons_self i is, rfl⟩
      · rcases hmem x hx' with ⟨j, hj, hxj⟩
        exact ⟨j, List.mem_cons_of_mem i hj, hxj⟩


/-! ## Theorems: group detection and group processing -/

theorem processCertGroup_skip {db : DB} {g : Str × List Nat}
    (h : findEud db.euds g.1 = none) : processCertGroup db g = db := by
  unfold processCertGroup
  rw [h]

theorem processCertGroup_run {db : DB} {g : Str × List Nat} {e : Eud}
    (h : findEud db.euds g.1 = some e) :
    processCertGroup db g = (g.2.drop 1).foldl (certCloneStep e g.1) db := by
  unfold processCertGroup
  rw [h]

theorem processPkgGroup_skip {db : DB} {g : Str × List Nat}
    (h : findEud db.euds g.1 = none) : processPkgGroup db g = db := by
  unfold processPkgGroup
  rw [h]

theorem processPkgGroup_run {db : DB} {g : Str × List Nat} {e : Eud}
    (h : findEud db.euds g.1 = some e) :
    processPkgGroup db g = (g.2.drop 1).foldl (pkgCloneStep e g.1) db := by
  unfold processPkgGroup
  rw [h]

theorem mem_dupValues {fks : List (Option Str)} {v : Str} :
    v ∈ dupValues fks ↔ 2 ≤ refCount fks v := by
  unfold dupValues
  rw [List.mem_filter, List.mem_dedup, List.mem_filterMap]
  constructor
  · rintro ⟨_, h2⟩
    simpa using h2
  · intro h2
    refine ⟨⟨some v, ?_, rfl⟩, by simpa using h2⟩
    have hpos : 0 < List.countP (fun f => decide (f = some v)) fks := by
      have : 2 ≤ List.countP (fun f => decide (f = some v)) fks := h2
      omega
    rcases List.countP_pos_iff.mp hpos with ⟨f, hf, hfv⟩
    simp only [decide_eq_true_eq] at hfv
    exact hfv ▸ hf

theorem dupValues_nodup (fks : List (Option Str)) : (dupValues fks).Nodup :=
  List.Nodup.filter _ (List.nodup_dedup _)

theorem mem_certGroup {certs : List Certificate} {v : Str} {i : Nat} :
    i ∈ certGroup certs v ↔ ∃ c ∈ certs, c.eud_uid = some v ∧ c.id = i := by
  unfold certGroup sortIds
  rw [List.mem_insertionSort, List.mem_map]
  constructor
  · rintro ⟨c, hc, rfl⟩
    rw [List.mem_filter] at hc
    exact ⟨c, hc.1, by simpa using hc.2, rfl⟩
  · rintro ⟨c, hc, hv, rfl⟩
    exact ⟨c, List.mem_filter.mpr ⟨hc, by simpa using hv⟩, rfl⟩

theorem mem_pkgGroup {pkgs : List DataPackage} {v : Str} {i : Nat} :
    i ∈ pkgGroup pkgs v ↔ ∃ p ∈ pkgs, p.creator_uid = some v ∧ p.id = i := by
  unfold pkgGroup sortIds
  rw [List.mem_insertionSort, List.mem_map]
  constructor
  · rintro ⟨p, hp, rfl⟩
    rw [List.mem_filter] at hp
    exact ⟨p, hp.1, by simpa using hp.2, rfl⟩
  · rintro ⟨p, hp, hv, rfl⟩
    exact ⟨p, List.mem_filter.mpr ⟨hp, by simpa using hv⟩, rfl⟩

theorem certGroup_sorted (certs : List Certificate) (v : Str) :
    List.Sorted (· ≤ ·) (certGroup certs v) :=
  List.sorted_insertionSort _ _

theorem pkgGroup_sorted (pkgs : List DataPackage) (v : Str) :
    List.Sorted (· ≤ ·) (pkgGroup pkgs v) :=
  List.sorted_insertionSort _ _

theorem certGroup_nodup {certs : List Certificate}
    (h : (certs.map (fun c => c.id)).Nodup) (v : Str) : (certGroup certs v).Nodup := by
  unfold certGroup sortIds
  rw [(List.perm_insertionSort _ _).nodup_iff]
  exact ((List.filter_sublist certs).map (fun c => c.id)).nodup h

theorem pkgGroup_nodup {pkgs : List DataPackage}
    (h : (pkgs.map (fun p => p.id)).Nodup) (v : Str) : (pkgGroup pkgs v).Nodup := by
  unfold pkgGroup sortIds
  rw [(List.perm_insertionSort _ _).nodup_iff]
  exact ((List.filter_sublist pkgs).map (fun p => p.id)).nodup h

theorem cert_id_inj {certs : List Certificate} (h : (certs.map (fun c => c.id)).Nodup)
    {c c' : Certificate} (hc : c ∈ certs) (hc' : c' ∈ certs) (hid : c.id = c'.id) : c = c' :=
  List.inj_on_of_nodup_map h hc hc' hid

theorem pkg_id_inj {pkgs : List DataPackage} (h : (pkgs.map (fun p => p.id)).Nodup)
    {p p' : DataPackage} (hp : p ∈ pkgs) (hp' : p' ∈ pkgs) (hid : p.id = p'.id) : p = p' :=
  List.inj_on_of_nodup_map h hp hp' hid

theorem certGroup_value {certs : List Certificate}
    (hnd : (certs.map (fun c => c.id)).Nodup) {c : Certificate} {v : Str}
    (hc : c ∈ certs) (hi : c.id ∈ certGroup certs v) : c.eud_uid = some v := by
  rcases mem_certGroup.mp hi with ⟨c', hc', hv', hid⟩
  rw [← cert_id_inj hnd hc' hc hid]
  exact hv'

theorem pkgGroup_value {pkgs : List DataPackage}
    (hnd : (pkgs.map (fun p => p.id)).Nodup) {p : DataPackage} {v : Str}
    (hp : p ∈ pkgs) (hi : p.id ∈ pkgGroup pkgs v) : p.creator_uid = some v := by
  rcases mem_pkgGroup.mp hi with ⟨p', hp', hv', hid⟩
  rw [← pkg_id_inj hnd hp' hp hid]
  exact hv'


/-! ## Theorems: whole-phase characterizations -/

theorem certFold_spec (db : DB) (vs : List Str) (hsf : ∀ v ∈ vs, hasSep v = false) :
    ∀ db', EudsOk db.euds db'.euds →
      ((vs.map (fun v => (v, certGroup db.certificates v))).foldl processCertGroup db').certificates
          = db'.certificates.map (certsAfter db vs)
        ∧ EudsOk db.euds
            (((vs.map (fun v => (v, certGroup db.certificates v))).foldl
              processCertGroup db').euds)
        ∧ ((vs.map (fun v => (v, certGroup db.certificates v))).foldl
              processCertGroup db').data_packages = db'.data_packages := by
  induction vs with
  | nil =>
    intro db' hok
    refine ⟨?_, hok, rfl⟩
    rw [List.map_nil, List.foldl_nil]
    exact (List.map_id'' (fun c => rfl) db'.certificates).symm
  | cons v vs ih =>
    intro db' hok
    have hsfv : hasSep v = false := hsf v (List.mem_cons_self v vs)
    have hsf' : ∀ w ∈ vs, hasSep w = false := fun w hw => hsf w (List.mem_cons_of_mem v hw)
    rw [List.map_cons, List.foldl_cons]
    have hfind : findEud db'.euds v = findEud db.euds v := eudsOk_findEud hok hsfv
    cases hdb : findEud db.euds v with
    | none =>
      have hskip : processCertGroup db' (v, certGroup db.certificates v) = db' :=
        processCertGroup_skip (by rw [show (v, certGroup db.certificates v).1 = v from rfl,
          hfind, hdb])
      rw [hskip]
      rcases ih hsf' db' hok with ⟨h1, h2, h3⟩
      refine ⟨?_, h2, h3⟩
      rw [h1]
      refine List.map_congr_left fun c _ => ?_
      show certsAfter db vs c = certsAfter db (v :: vs) c
      simp [certsAfter, hdb]
    | some e =>
      have hrun : processCertGroup db' (v, certGroup db.certificates v)
          = ((certGroup db.certificates v).drop 1).foldl (certCloneStep e v) db' :=
        processCertGroup_run (by rw [show (v, certGroup db.certificates v).1 = v from rfl,
          hfind, hdb])
      rw [hrun]
      have hok'' : EudsOk db.euds
          (((certGroup db.certificates v).drop 1).foldl (certCloneStep e v) db').euds := by
        refine eudsOk_trans hok ⟨_, certInner_euds e v _ db', ?_⟩
        intro x hx
        rcases List.mem_map.mp hx with ⟨i, _, rfl⟩
        exact ⟨v, i, rfl⟩
      rcases ih hsf' _ hok'' with ⟨h1, h2, h3⟩
      refine ⟨?_, h2, ?_⟩
      · rw [h1, certInner_certificates, List.map_map]
        refine List.map_congr_left fun c _ => ?_
        show certsAfter db vs (certUpdOn v ((certGroup db.certificates v).drop 1) c)
          = certsAfter db (v :: vs) c
        simp [certsAfter, hdb]
      · rw [h3, certInner_pkgs]

theorem pkgFold_spec (db : DB) (vs : List Str) (hsf : ∀ v ∈ vs, hasSep v = false) :
    ∀ db', EudsOk db.euds db'.euds →
      ((vs.map (fun v => (v, pkgGroup db.data_packages v))).foldl processPkgGroup db').data_packages
          = db'.data_packages.map (pkgsAfter db vs)
        ∧ EudsOk db.euds
            (((vs.map (fun v => (v, pkgGroup db.data_packages v))).foldl
              processPkgGroup db').euds)
        ∧ ((vs.map (fun v => (v, pkgGroup db.data_packages v))).foldl
              processPkgGroup db').certificates = db'.certificates := by
  induction vs with
  | nil =>
    intro db' hok
    refine ⟨?_, hok, rfl⟩
    rw [List.map_nil, List.foldl_nil]
    exact (List.map_id'' (fun p => rfl) db'.data_packages).symm
  | cons v vs ih =>
    intro db' hok
    have hsfv : hasSep v = false := hsf v (List.mem_cons_self v vs)
    have hsf' : ∀ w ∈ vs, hasSep w = false := fun w hw => hsf w (List.mem_cons_of_mem v hw)
    rw [List.map_cons, List.foldl_cons]
    have hfind : findEud db'.euds v = findEud db.euds v := eudsOk_findEud hok hsfv
    cases hdb : findEud db.euds v with
    | none =>
      have hskip : processPkgGroup db' (v, pkgGroup db.data_packages v) = db' :=
        processPkgGroup_skip (by rw [show (v, pkgGroup db.data_packages v).1 = v from rfl,
          hfind, hdb])
      rw [hskip]
      rcases ih hsf' db' hok with ⟨h1, h2, h3⟩
      refine ⟨?_, h2, h3⟩
      rw [h1]
      refine List.map_congr_left fun p _ => ?_
      show pkgsAfter db vs p = pkgsAfter db (v :: vs) p
      simp [pkgsAfter, hdb]
    | some e =>
      have hrun : processPkgGroup db' (v, pkgGroup db.data_packages v)
          = ((pkgGroup db.data_packages v).drop 1).foldl (pkgCloneStep e v) db' :=
        processPkgGroup_run (by rw [show (v, pkgGroup db.data_packages v).1 = v from rfl,
          hfind, hdb])
      rw [hrun]
      have hok'' : EudsOk db.euds
          (((pkgGroup db.data_packages v).drop 1).foldl (pkgCloneStep e v) db').euds := by
        rcases pkgInner_euds e v ((pkgGroup db.data_packages v).drop 1) db' with ⟨l, hl, hmem⟩
        refine eudsOk_trans hok ⟨l, hl, ?_⟩
        intro x hx
        rcases hmem x hx with ⟨i, _, rfl⟩
        exact ⟨v, i, rfl⟩
      rcases ih hsf' _ hok'' with ⟨h1, h2, h3⟩
      refine ⟨?_, h2, ?_⟩
      · rw [h1, pkgInner_pkgs, List.map_map]
        refine List.map_congr_left fun p _ => ?_
        show pkgsAfter db vs (pkgUpdOn v ((pkgGroup db.data_packages v).drop 1) p)
          = pkgsAfter db (v :: vs) p
        simp [pkgsAfter, hdb]
      · rw [h3, pkgInner_certificates]

theorem certPhase_spec (db : DB)
    (hsf : ∀ c ∈ db.certificates, ∀ v ∈ c.eud_uid.toList, hasSep v = false) :
    (certPhase db).certificates
        = db.certificates.map
            (certsAfter db (dupValues (db.certificates.map (fun c => c.eud_uid))))
      ∧ EudsOk db.euds (certPhase db).euds
      ∧ (certPhase db).data_packages = db.data_packages := by
  have hvs : ∀ v ∈ dupValues (db.certificates.map (fun c => c.eud_uid)), hasSep v = false := by
    intro v hv
    have h2 := mem_dupValues.mp hv
    have hpos : 0 < refCount (db.certificates.map (fun c => c.eud_uid)) v := by omega
    rcases List.countP_pos_iff.mp hpos with ⟨f, hf, hfv⟩
    simp only [decide_eq_true_eq] at hfv
    rcases List.mem_map.mp hf with ⟨c, hc, hcf⟩
    exact hsf c hc v (by simp [hcf, hfv])
  have := certFold_spec db (dupValues (db.certificates.map (fun c => c.eud_uid))) hvs db
    (eudsOk_refl db.euds)
  rw [show (dupValues (db.certificates.map (fun c => c.eud_uid))).map
      (fun v => (v, certGroup db.certificates v)) = certGroups db.certificates from rfl] at this
  exact this

theorem pkgPhase_spec (db : DB)
    (hsf : ∀ p ∈ db.data_packages, ∀ v ∈ p.creator_uid.toList, hasSep v = false) :
    (pkgPhase db).data_packages
        = db.data_packages.map
            (pkgsAfter db (dupValues (db.data_packages.map (fun p => p.creator_uid))))
      ∧ EudsOk db.euds (pkgPhase db).euds
      ∧ (pkgPhase db).certificates = db.certificates := by
  have hvs : ∀ v ∈ dupValues (db.data_packages.map (fun p => p.creator_uid)),
      hasSep v = false := by
    intro v hv
    have h2 := mem_dupValues.mp hv
    have hpos : 0 < refCount (db.data_packages.map (fun p => p.creator_uid)) v := by omega
    rcases List.countP_pos_iff.mp hpos with ⟨f, hf, hfv⟩
    simp only [decide_eq_true_eq] at hfv
    rcases List.mem_map.mp hf with ⟨p, hp, hpf⟩
    exact hsf p hp v (by simp [hpf, hfv])
  have := pkgFold_spec db (dupValues (db.data_packages.map (fun p => p.creator_uid))) hvs db
    (eudsOk_refl db.euds)
  rw [show (dupValues (db.data_packages.map (fun p => p.creator_uid))).map
      (fun v => (v, pkgGroup db.data_packages v)) = pkgGroups db.data_packages from rfl] at this
  exact this


/-! ## Theorems: pointwise interpretation of the cumulative updates -/

theorem certsAfter_noHit {db : DB} {c : Certificate} {vs : List Str}
    (h : ∀ v ∈ vs, ¬((findEud db.euds v).isSome = true
      ∧ c.id ∈ (certGroup db.certificates v).drop 1)) :
    certsAfter db vs c = c := by
  induction vs with
  | nil => rfl
  | cons v vs ih =>
    have hv := h v (List.mem_cons_self v vs)
    have hstep : (if (findEud db.euds v).isSome
        then certUpdOn v ((certGroup db.certificates v).drop 1) c else c) = c := by
      by_cases hs : (findEud db.euds v).isSome = true
      · rw [if_pos hs]
        unfold certUpdOn
        rw [if_neg (fun hmem => hv ⟨hs, hmem⟩)]
      · rw [if_neg (by simpa using hs)]
    rw [certsAfter, hstep]
    exact ih fun w hw => h w (List.mem_cons_of_mem v hw)

theorem pkgsAfter_noHit {db : DB} {p : DataPackage} {vs : List Str}
    (h : ∀ v ∈ vs, ¬((findEud db.euds v).isSome = true
      ∧ p.id ∈ (pkgGroup db.data_packages v).drop 1)) :
    pkgsAfter db vs p = p := by
  induction vs with
  | nil => rfl
  | cons v vs ih =>
    have hv := h v (List.mem_cons_self v vs)
    have hstep : (if (findEud db.euds v).isSome
        then pkgUpdOn v ((pkgGroup db.data_packages v).drop 1) p else p) = p := by
      by_cases hs : (findEud db.euds v).isSome = true
      · rw [if_pos hs]
        unfold pkgUpdOn
        rw [if_neg (fun hmem => hv ⟨hs, hmem⟩)]
      · rw [if_neg (by simpa using hs)]
    rw [pkgsAfter, hstep]
    exact ih fun w hw => h w (List.mem_cons_of_mem v hw)

theorem certsAfter_hit {db : DB} {c : Certificate} {v₀ : Str} {vs : List Str}
    (hnd : vs.Nodup) (hv₀ : v₀ ∈ vs)
    (hsome : (findEud db.euds v₀).isSome = true)
    (hmem : c.id ∈ (certGroup db.certificates v₀).drop 1)
    (hval : ∀ v', c.id ∈ (certGroup db.certificates v').drop 1 → v' = v₀) :
    certsAfter db vs c = { c with eud_uid := some (derive v₀ c.id) } := by
  induction vs with
  | nil => cases hv₀
  | cons v vs ih =>
    rw [certsAfter]
    by_cases hvv : v = v₀
    · subst hvv
      rw [if_pos hsome]
      have hupd : certUpdOn v ((certGroup db.certificates v).drop 1) c
          = { c with eud_uid := some (derive v c.id) } := by
        unfold certUpdOn
        rw [if_pos hmem]
      rw [hupd]
      refine certsAfter_noHit ?_
      intro w hw hhit
      have : w = v := hval w (by simpa using hhit.2)
      subst this
      exact (List.nodup_cons.mp hnd).1 hw
    · have hv₀' : v₀ ∈ vs := by
        rcases List.mem_cons.mp hv₀ with h | h
        · exact absurd h.symm hvv
        · exact h
      have hstep : (if (findEud db.euds v).isSome
          then certUpdOn v ((certGroup db.certificates v).drop 1) c else c) = c := by
        by_cases hs : (findEud db.euds v).isSome = true
        · rw [if_pos hs]
          unfold certUpdOn
          rw [if_neg (fun hmemv => hvv (hval v hmemv))]
        · rw [if_neg (by simpa using hs)]
      rw [hstep]
      exact ih (List.nodup_cons.mp hnd).2 hv₀'

theorem pkgsAfter_hit {db : DB} {p : DataPackage} {v₀ : Str} {vs : List Str}
    (hnd : vs.Nodup) (hv₀ : v₀ ∈ vs)
    (hsome : (findEud db.euds v₀).isSome = true)
    (hmem : p.id ∈ (pkgGroup db.data_packages v₀).drop 1)
    (hval : ∀ v', p.id ∈ (pkgGroup db.data_packages v').drop 1 → v' = v₀) :
    pkgsAfter db vs p = { p with creator_uid := some (derive v₀ p.id) } := by
  induction vs with
  | nil => cases hv₀
  | cons v vs ih =>
    rw [pkgsAfter]
    by_cases hvv : v = v₀
    · subst hvv
      rw [if_pos hsome]
      have hupd : pkgUpdOn v ((pkgGroup db.data_packages v).drop 1) p
          = { p with creator_uid := some (derive v p.id) } := by
        unfold pkgUpdOn
        rw [if_pos hmem]
      rw [hupd]
      refine pkgsAfter_noHit ?_
      intro w hw hhit
      have : w = v := hval w (by simpa using hhit.2)
      subst this
      exact (List.nodup_cons.mp hnd).1 hw
    · have hv₀' : v₀ ∈ vs := by
        rcases List.mem_cons.mp hv₀ with h | h
        · exact absurd h.symm hvv
        · exact h
      have hstep : (if (findEud db.euds v).isSome
          then pkgUpdOn v ((pkgGroup db.data_packages v).drop 1) p else p) = p := by
        by_cases hs : (findEud db.euds v).isSome = true
        · rw [if_pos hs]
          unfold pkgUpdOn
          rw [if_neg (fun hmemv => hvv (hval v hmemv))]
        · rw [if_neg (by simpa using hs)]
      rw [hstep]
      exact ih (List.nodup_cons.mp hnd).2 hv₀'


/-! ## Theorems: closed-form final rows and frame facts -/

theorem certsAfter_eq_certFinal {db : DB}
    (hnd : (db.certificates.map (fun c => c.id)).Nodup)
    {c : Certificate} (hc : c ∈ db.certificates) :
    certsAfter db (dupValues (db.certificates.map (fun x => x.eud_uid))) c = certFinal db c := by
  have hval : ∀ v', c.id ∈ (certGroup db.certificates v').drop 1 → c.eud_uid = some v' := by
    intro v' hmem
    exact certGroup_value hnd hc (List.mem_of_mem_drop hmem)
  obtain ⟨cid, fk⟩ := c
  cases fk with
  | none =>
    show certsAfter db _ ⟨cid, none⟩ = ⟨cid, none⟩
    refine certsAfter_noHit ?_
    rintro v hv ⟨hs, hmem⟩
    cases hval v hmem
  | some v =>
    by_cases hcond : 2 ≤ refCount (db.certificates.map (fun x => x.eud_uid)) v
        ∧ (findEud db.euds v).isSome = true
        ∧ (Certificate.mk cid (some v)).id ∈ (certGroup db.certificates v).drop 1
    · have hfin : certFinal db ⟨cid, some v⟩
          = { Certificate.mk cid (some v) with eud_uid := some (derive v cid) } := by
        show (if 2 ≤ refCount (db.certificates.map (fun x => x.eud_uid)) v
            ∧ (findEud db.euds v).isSome = true
            ∧ (Certificate.mk cid (some v)).id ∈ (certGroup db.certificates v).drop 1
          then { Certificate.mk cid (some v) with eud_uid := some (derive v cid) }
          else Certificate.mk cid (some v)) = _
        rw [if_pos hcond]
      rw [hfin]
      refine certsAfter_hit (dupValues_nodup _) (mem_dupValues.mpr hcond.1) hcond.2.1
        hcond.2.2 ?_
      intro v' hmem'
      have := hval v' hmem'
      injection this with h
      exact h.symm
    · have hfin : certFinal db ⟨cid, some v⟩ = ⟨cid, some v⟩ := by
        show (if 2 ≤ refCount (db.certificates.map (fun x => x.eud_uid)) v
            ∧ (findEud db.euds v).isSome = true
            ∧ (Certificate.mk cid (some v)).id ∈ (certGroup db.certificates v).drop 1
          then { Certificate.mk cid (some v) with eud_uid := some (derive v cid) }
          else Certificate.mk cid (some v)) = _
        rw [if_neg hcond]
      rw [hfin]
      refine certsAfter_noHit ?_
      rintro w hw ⟨hs, hmem⟩
      have hvw := hval w hmem
      injection hvw with hvw'
      subst hvw'
      exact hcond ⟨mem_dupValues.mp hw, hs, hmem⟩

theorem pkgsAfter_eq_pkgFinal {db : DB}
    (hnd : (db.data_packages.map (fun p => p.id)).Nodup)
    {p : DataPackage} (hp : p ∈ db.data_packages) :
    pkgsAfter db (dupValues (db.data_packages.map (fun x => x.creator_uid))) p
      = pkgFinal db p := by
  have hval : ∀ v', p.id ∈ (pkgGroup db.data_packages v').drop 1 → p.creator_uid = some v' := by
    intro v' hmem
    exact pkgGroup_value hnd hp (List.mem_of_mem_drop hmem)
  obtain ⟨pid, fk⟩ := p
  cases fk with
  | none =>
    show pkgsAfter db _ ⟨pid, none⟩ = ⟨pid, none⟩
    refine pkgsAfter_noHit ?_
    rintro v hv ⟨hs, hmem⟩
    cases hval v hmem
  | some v =>
    by_cases hcond : 2 ≤ refCount (db.data_packages.map (fun x => x.creator_uid)) v
        ∧ (findEud db.euds v).isSome = true
        ∧ (DataPackage.mk pid (some v)).id ∈ (pkgGroup db.data_packages v).drop 1
    · have hfin : pkgFinal db ⟨pid, some v⟩
          = { DataPackage.mk pid (some v) with creator_uid := some (derive v pid) } := by
        show (if 2 ≤ refCount (db.data_packages.map (fun x => x.creator_uid)) v
            ∧ (findEud db.euds v).isSome = true
            ∧ (DataPackage.mk pid (some v)).id ∈ (pkgGroup db.data_packages v).drop 1
          then { DataPackage.mk pid (some v) with creator_uid := some (derive v pid) }
          else DataPackage.mk pid (some v)) = _
        rw [if_pos hcond]
      rw [hfin]
      refine pkgsAfter_hit (dupValues_nodup _) (mem_dupValues.mpr hcond.1) hcond.2.1
        hcond.2.2 ?_
      intro v' hmem'
      have := hval v' hmem'
      injection this with h
      exact h.symm
    · have hfin : pkgFinal db ⟨pid, some v⟩ = ⟨pid, some v⟩ := by
        show (if 2 ≤ refCount (db.data_packages.map (fun x => x.creator_uid)) v
            ∧ (findEud db.euds v).isSome = true
            ∧ (DataPackage.mk pid (some v)).id ∈ (pkgGroup db.data_packages v).drop 1
          then { DataPackage.mk pid (some v) with creator_uid := some (derive v pid) }
          else DataPackage.mk pid (some v)) = _
        rw [if_neg hcond]
      rw [hfin]
      refine pkgsAfter_noHit ?_
      rintro w hw ⟨hs, hmem⟩
      have hvw := hval w hmem
      injection hvw with hvw'
      subst hvw'
      exact hcond ⟨mem_dupValues.mp hw, hs, hmem⟩

theorem processPkgGroup_certificates (db : DB) (g : Str × List Nat) :
    (processPkgGroup db g).certificates = db.certificates := by
  unfold processPkgGroup
  cases h : findEud db.euds g.1 with
  | none => rfl
  | some e => exact pkgInner_certificates e g.1 (g.2.drop 1) db

theorem processCertGroup_data_packages (db : DB) (g : Str × List Nat) :
    (processCertGroup db g).data_packages = db.data_packages := by
  unfold processCertGroup
  cases h : findEud db.euds g.1 with
  | none => rfl
  | some e => exact certInner_pkgs e g.1 (g.2.drop 1) db

theorem pkgFold_certificates (gs : List (Str × List Nat)) :
    ∀ db : DB, (gs.foldl processPkgGroup db).certificates = db.certificates := by
  induction gs with
  | nil => intro db; rfl
  | cons g gs ih =>
    intro db
    rw [List.foldl_cons, ih, processPkgGroup_certificates]

theorem certFold_data_packages (gs : List (Str × List Nat)) :
    ∀ db : DB, (gs.foldl processCertGroup db).data_packages = db.data_packages := by
  induction gs with
  | nil => intro db; rfl
  | cons g gs ih =>
    intro db
    rw [List.foldl_cons, ih, processCertGroup_data_packages]

theorem pkgPhase_certificates (db : DB) : (pkgPhase db).certificates = db.certificates :=
  pkgFold_certificates _ db

theorem certPhase_data_packages (db : DB) : (certPhase db).data_packages = db.data_packages :=
  certFold_data_packages _ db

theorem processCertGroup_eudsOk (db : DB) (g : Str × List Nat) :
    EudsOk db.euds (processCertGroup db g).euds := by
  unfold processCertGroup
  cases h : findEud db.euds g.1 with
  | none => exact eudsOk_refl _
  | some e =>
    refine ⟨_, certInner_euds e g.1 (g.2.drop 1) db, ?_⟩
    intro x hx
    rcases List.mem_map.mp hx with ⟨i, _, rfl⟩
    exact ⟨g.1, i, rfl⟩

theorem processPkgGroup_eudsOk (db : DB) (g : Str × List Nat) :
    EudsOk db.euds (processPkgGroup db g).euds := by
  unfold processPkgGroup
  cases h : findEud db.euds g.1 with
  | none => exact eudsOk_refl _
  | some e =>
    rcases pkgInner_euds e g.1 (g.2.drop 1) db with ⟨l, hl, hmem⟩
    refine ⟨l, hl, ?_⟩
    intro x hx
    rcases hmem x hx with ⟨i, _, rfl⟩
    exact ⟨g.1, i, rfl⟩

theorem certFold_eudsOk (gs : List (Str × List Nat)) :
    ∀ db : DB, EudsOk db.euds (gs.foldl processCertGroup db).euds := by
  induction gs with
  | nil => intro db; exact eudsOk_refl _
  | cons g gs ih =>
    intro db
    rw [List.foldl_cons]
    exact eudsOk_trans (processCertGroup_eudsOk db g) (ih _)

theorem pkgFold_eudsOk (gs : List (Str × List Nat)) :
    ∀ db : DB, EudsOk db.euds (gs.foldl processPkgGroup db).euds := by
  induction gs with
  | nil => intro db; exact eudsOk_refl _
  | cons g gs ih =>
    intro db
    rw [List.foldl_cons]
    exact eudsOk_trans (processPkgGroup_eudsOk db g) (ih _)

theorem certPhase_eudsOk (db : DB) : EudsOk db.euds (certPhase db).euds :=
  certFold_eudsOk _ db

theorem pkgPhase_eudsOk (db : DB) : EudsOk db.euds (pkgPhase db).euds :=
  pkgFold_eudsOk _ db

theorem upgrade_eudsOk (db : DB) : EudsOk db.euds (upgrade db).euds :=
  eudsOk_trans (certPhase_eudsOk db) (pkgPhase_eudsOk (certPhase db))

theorem certPhase_certificates {db : DB}
    (hnd : (db.certificates.map (fun c => c.id)).Nodup)
    (hsf : ∀ c ∈ db.certificates, ∀ v ∈ c.eud_uid.toList, hasSep v = false) :
    (certPhase db).certificates = db.certificates.map (certFinal db) := by
  rw [(certPhase_spec db hsf).1]
  exact List.map_congr_left fun c hc => certsAfter_eq_certFinal hnd hc

theorem upgrade_certificates {db : DB}
    (hnd : (db.certificates.map (fun c => c.id)).Nodup)
    (hsf : ∀ c ∈ db.certificates, ∀ v ∈ c.eud_uid.toList, hasSep v = false) :
    (upgrade db).certificates = db.certificates.map (certFinal db) := by
  unfold upgrade
  rw [pkgPhase_certificates, certPhase_certificates hnd hsf]

theorem pkgFinal_stable {db db₁ : DB} (hpkgs : db₁.data_packages = db.data_packages)
    (hok : EudsOk db.euds db₁.euds) {p : DataPackage} (hp : p ∈ db.data_packages)
    (hsfp : ∀ v ∈ p.creator_uid.toList, hasSep v = false) :
    pkgFinal db₁ p = pkgFinal db p := by
  obtain ⟨pid, fk⟩ := p
  cases fk with
  | none => rfl
  | some v =>
    have hsv : hasSep v = false := hsfp v (by simp)
    show (if 2 ≤ refCount (db₁.data_packages.map (fun x => x.creator_uid)) v
        ∧ (findEud db₁.euds v).isSome = true
        ∧ (DataPackage.mk pid (some v)).id ∈ (pkgGroup db₁.data_packages v).drop 1
      then { DataPackage.mk pid (some v) with creator_uid := some (derive v pid) }
      else DataPackage.mk pid (some v))
      = (if 2 ≤ refCount (db.data_packages.map (fun x => x.creator_uid)) v
        ∧ (findEud db.euds v).isSome = true
        ∧ (DataPackage.mk pid (some v)).id ∈ (pkgGroup db.data_packages v).drop 1
      then { DataPackage.mk pid (some v) with creator_uid := some (derive v pid) }
      else DataPackage.mk pid (some v))
    rw [hpkgs, eudsOk_findEud hok hsv]

theorem upgrade_data_packages {db : DB}
    (hndp : (db.data_packages.map (fun p => p.id)).Nodup)
    (hsfp : ∀ p ∈ db.data_packages, ∀ v ∈ p.creator_uid.toList, hasSep v = false) :
    (upgrade db).data_packages = db.data_packages.map (pkgFinal db) := by
  unfold upgrade
  have hframe : (certPhase db).data_packages = db.data_packages := certPhase_data_packages db
  have hsfp₁ : ∀ p ∈ (certPhase db).data_packages, ∀ v ∈ p.creator_uid.toList,
      hasSep v = false := by
    rw [hframe]
    exact hsfp
  have hndp₁ : ((certPhase db).data_packages.map (fun p => p.id)).Nodup := by
    rw [hframe]
    exact hndp
  rw [(pkgPhase_spec (certPhase db) hsfp₁).1, hframe]
  refine List.map_congr_left fun p hp => ?_
  have h1 : pkgsAfter (certPhase db)
      (dupValues (db.data_packages.map (fun x => x.creator_uid))) p
      = pkgFinal (certPhase db) p := by
    have := pkgsAfter_eq_pkgFinal hndp₁ (p := p) (by rw [hframe]; exact hp)
    rw [show dupValues ((certPhase db).data_packages.map (fun x => x.creator_uid))
        = dupValues (db.data_packages.map (fun x => x.creator_uid)) by rw [hframe]] at this
    exact this
  rw [h1]
  exact pkgFinal_stable hframe (certPhase_eudsOk db) hp (hsfp p hp)


/-! ## Theorems: uniqueness of the final foreign keys -/

theorem certFinal_pos {db : DB} {cid : Nat} {v : Str}
    (h : 2 ≤ refCount (db.certificates.map (fun x => x.eud_uid)) v
      ∧ (findEud db.euds v).isSome = true
      ∧ cid ∈ (certGroup db.certificates v).drop 1) :
    certFinal db ⟨cid, some v⟩ = ⟨cid, some (derive v cid)⟩ := by
  show (if 2 ≤ refCount (db.certificates.map (fun x => x.eud_uid)) v
      ∧ (findEud db.euds v).isSome = true
      ∧ cid ∈ (certGroup db.certificates v).drop 1
    then { Certificate.mk cid (some v) with eud_uid := some (derive v cid) }
    else Certificate.mk cid (some v)) = _
  rw [if_pos h]

theorem certFinal_neg {db : DB} {cid : Nat} {v : Str}
    (h : ¬(2 ≤ refCount (db.certificates.map (fun x => x.eud_uid)) v
      ∧ (findEud db.euds v).isSome = true
      ∧ cid ∈ (certGroup db.certificates v).drop 1)) :
    certFinal db ⟨cid, some v⟩ = ⟨cid, some v⟩ := by
  show (if 2 ≤ refCount (db.certificates.map (fun x => x.eud_uid)) v
      ∧ (findEud db.euds v).isSome = true
      ∧ cid ∈ (certGroup db.certificates v).drop 1
    then { Certificate.mk cid (some v) with eud_uid := some (derive v cid) }
    else Certificate.mk cid (some v)) = _
  rw [if_neg h]

theorem pkgFinal_pos {db : DB} {pid : Nat} {v : Str}
    (h : 2 ≤ refCount (db.data_packages.map (fun x => x.creator_uid)) v
      ∧ (findEud db.euds v).isSome = true
      ∧ pid ∈ (pkgGroup db.data_packages v).drop 1) :
    pkgFinal db ⟨pid, some v⟩ = ⟨pid, some (derive v pid)⟩ := by
  show (if 2 ≤ refCount (db.data_packages.map (fun x => x.creator_uid)) v
      ∧ (findEud db.euds v).isSome = true
      ∧ pid ∈ (pkgGroup db.data_packages v).drop 1
    then { DataPackage.mk pid (some v) with creator_uid := some (derive v pid) }
    else DataPackage.mk pid (some v)) = _
  rw [if_pos h]

theorem pkgFinal_neg {db : DB} {pid : Nat} {v : Str}
    (h : ¬(2 ≤ refCount (db.data_packages.map (fun x => x.creator_uid)) v
      ∧ (findEud db.euds v).isSome = true
      ∧ pid ∈ (pkgGroup db.data_packages v).drop 1)) :
    pkgFinal db ⟨pid, some v⟩ = ⟨pid, some v⟩ := by
  show (if 2 ≤ refCount (db.data_packages.map (fun x => x.creator_uid)) v
      ∧ (findEud db.euds v).isSome = true
      ∧ pid ∈ (pkgGroup db.data_packages v).drop 1
    then { DataPackage.mk pid (some v) with creator_uid := some (derive v pid) }
    else DataPackage.mk pid (some v)) = _
  rw [if_neg h]

theorem countP_le_one_of_pairwise {α : Type} {p : α → Bool} {l : List α}
    (h : l.Pairwise (fun a b => ¬(p a = true ∧ p b = true))) : l.countP p ≤ 1 := by
  induction l with
  | nil => simp
  | cons a t ih =>
    rw [List.countP_cons]
    rcases List.pairwise_cons.mp h with ⟨ha, ht⟩
    by_cases hpa : p a = true
    · have hz : t.countP p = 0 := by
        rw [List.countP_eq_zero]
        intro x hx hpx
        exact ha x hx ⟨hpa, hpx⟩
      rw [hz, if_pos hpa]
    · rw [if_neg hpa]
      have := ih ht
      omega

theorem two_le_countP_of_mem {α : Type} {p : α → Bool} {l : List α} {a b : α}
    (ha : a ∈ l) (hb : b ∈ l) (hab : a ≠ b) (hpa : p a = true) (hpb : p b = true) :
    2 ≤ l.countP p := by
  induction l with
  | nil => cases ha
  | cons x t ih =>
    rw [List.countP_cons]
    rcases List.mem_cons.mp ha with rfl | ha'
    · have hbt : b ∈ t := by
        rcases List.mem_cons.mp hb with rfl | hb'
        · exact absurd rfl hab
        · exact hb'
      have h1 : 0 < t.countP p := List.countP_pos_iff.mpr ⟨b, hbt, hpb⟩
      rw [if_pos hpa]
      omega
    · rcases List.mem_cons.mp hb with rfl | hb'
      · have h1 : 0 < t.countP p := List.countP_pos_iff.mpr ⟨a, ha', hpa⟩
        rw [if_pos hpb]
        omega
      · have := ih ha' hb'
        omega

theorem eq_head_of_not_mem_drop {l : List Nat} {i : Nat} (hi : i ∈ l) (hnd : i ∉ l.drop 1) :
    l.head? = some i := by
  cases l with
  | nil => cases hi
  | cons a t =>
    simp only [List.drop_one, List.tail_cons] at hnd
    rcases List.mem_cons.mp hi with rfl | h
    · rfl
    · exact absurd h hnd

theorem certFinal_uniq {db : DB}
    (hnd : (db.certificates.map (fun c => c.id)).Nodup)
    (hsf : ∀ c ∈ db.certificates, ∀ v ∈ c.eud_uid.toList, hasSep v = false)
    (hde : ∀ v ∈ dupValues (db.certificates.map (fun c => c.eud_uid)),
      (findEud db.euds v).isSome = true)
    {c c' : Certificate} (hc : c ∈ db.certificates) (hc' : c' ∈ db.certificates)
    (hne : c ≠ c') {u : Str}
    (h1 : (certFinal db c).eud_uid = some u) (h2 : (certFinal db c').eud_uid = some u) :
    False := by
  obtain ⟨cid, fk⟩ := c
  obtain ⟨cid', fk'⟩ := c'
  cases fk with
  | none => exact Option.noConfusion h1
  | some v =>
  cases fk' with
  | none => exact Option.noConfusion h2
  | some v' =>
  by_cases hcond : 2 ≤ refCount (db.certificates.map (fun x => x.eud_uid)) v
      ∧ (findEud db.euds v).isSome = true
      ∧ cid ∈ (certGroup db.certificates v).drop 1
  all_goals by_cases hcond' : 2 ≤ refCount (db.certificates.map (fun x => x.eud_uid)) v'
      ∧ (findEud db.euds v').isSome = true
      ∧ cid' ∈ (certGroup db.certificates v').drop 1
  · rw [certFinal_pos hcond] at h1
    rw [certFinal_pos hcond'] at h2
    injection h1 with h1'
    injection h2 with h2'
    have hd : derive v cid = derive v' cid' := by rw [h1', h2']
    rcases derive_injective hd with ⟨rfl, rfl⟩
    exact hne (cert_id_inj hnd hc hc' rfl)
  · rw [certFinal_pos hcond] at h1
    rw [certFinal_neg hcond'] at h2
    injection h1 with h1'
    injection h2 with h2'
    have hsv' : hasSep v' = false := hsf _ hc' v' (by simp)
    rw [h2', ← h1', hasSep_derive] at hsv'
    exact Bool.noConfusion hsv'
  · rw [certFinal_neg hcond] at h1
    rw [certFinal_pos hcond'] at h2
    injection h1 with h1'
    injection h2 with h2'
    have hsv : hasSep v = false := hsf _ hc v (by simp)
    rw [h1', ← h2', hasSep_derive] at hsv
    exact Bool.noConfusion hsv
  · rw [certFinal_neg hcond] at h1
    rw [certFinal_neg hcond'] at h2
    injection h1 with h1'
    injection h2 with h2'
    have hvv : v' = v := by rw [h1', h2']
    subst hvv
    have hcnt : 2 ≤ refCount (db.certificates.map (fun x => x.eud_uid)) v' := by
      unfold refCount
      rw [List.countP_map]
      exact two_le_countP_of_mem hc hc' hne (by simp) (by simp)
    have hfe : (findEud db.euds v').isSome = true := hde v' (mem_dupValues.mpr hcnt)
    have hm1 : cid ∈ certGroup db.certificates v' := mem_certGroup.mpr ⟨_, hc, rfl, rfl⟩
    have hm2 : cid' ∈ certGroup db.certificates v' := mem_certGroup.mpr ⟨_, hc', rfl, rfl⟩
    have hd1 : cid ∉ (certGroup db.certificates v').drop 1 := fun hmem =>
      hcond ⟨hcnt, hfe, hmem⟩
    have hd2 : cid' ∉ (certGroup db.certificates v').drop 1 := fun hmem =>
      hcond' ⟨hcnt, hfe, hmem⟩
    have hh1 := eq_head_of_not_mem_drop hm1 hd1
    have hh2 := eq_head_of_not_mem_drop hm2 hd2
    rw [hh1] at hh2
    injection hh2 with hh
    exact hne (cert_id_inj hnd hc hc' hh)

theorem pkgFinal_uniq {db : DB}
    (hnd : (db.data_packages.map (fun p => p.id)).Nodup)
    (hsf : ∀ p ∈ db.data_packages, ∀ v ∈ p.creator_uid.toList, hasSep v = false)
    (hde : ∀ v ∈ dupValues (db.data_packages.map (fun p => p.creator_uid)),
      (findEud db.euds v).isSome = true)
    {p p' : DataPackage} (hp : p ∈ db.data_packages) (hp' : p' ∈ db.data_packages)
    (hne : p ≠ p') {u : Str}
    (h1 : (pkgFinal db p).creator_uid = some u) (h2 : (pkgFinal db p').creator_uid = some u) :
    False := by
  obtain ⟨pid, fk⟩ := p
  obtain ⟨pid', fk'⟩ := p'
  cases fk with
  | none => exact Option.noConfusion h1
  | some v =>
  cases fk' with
  | none => exact Option.noConfusion h2
  | some v' =>
  by_cases hcond : 2 ≤ refCount (db.data_packages.map (fun x => x.creator_uid)) v
      ∧ (findEud db.euds v).isSome = true
      ∧ pid ∈ (pkgGroup db.data_packages v).drop 1
  all_goals by_cases hcond' : 2 ≤ refCount (db.data_packages.map (fun x => x.creator_uid)) v'
      ∧ (findEud db.euds v').isSome = true
      ∧ pid' ∈ (pkgGroup db.data_packages v').drop 1
  · rw [pkgFinal_pos hcond] at h1
    rw [pkgFinal_pos hcond'] at h2
    injection h1 with h1'
    injection h2 with h2'
    have hd : derive v pid = derive v' pid' := by rw [h1', h2']
    rcases derive_injective hd with ⟨rfl, rfl⟩
    exact hne (pkg_id_inj hnd hp hp' rfl)
  · rw [pkgFinal_pos hcond] at h1
    rw [pkgFinal_neg hcond'] at h2
    injection h1 with h1'
    injection h2 with h2'
    have hsv' : hasSep v' = false := hsf _ hp' v' (by simp)
    rw [h2', ← h1', hasSep_derive] at hsv'
    exact Bool.noConfusion hsv'
  · rw [pkgFinal_neg hcond] at h1
    rw [pkgFinal_pos hcond'] at h2
    injection h1 with h1'
    injection h2 with h2'
    have hsv : hasSep v = false := hsf _ hp v (by simp)
    rw [h1', ← h2', hasSep_derive] at hsv
    exact Bool.noConfusion hsv
  · rw [pkgFinal_neg hcond] at h1
    rw [pkgFinal_neg hcond'] at h2
    injection h1 with h1'
    injection h2 with h2'
    have hvv : v' = v := by rw [h1', h2']
    subst hvv
    have hcnt : 2 ≤ refCount (db.data_packages.map (fun x => x.creator_uid)) v' := by
      unfold refCount
      rw [List.countP_map]
      exact two_le_countP_of_mem hp hp' hne (by simp) (by simp)
    have hfe : (findEud db.euds v').isSome = true := hde v' (mem_dupValues.mpr hcnt)
    have hm1 : pid ∈ pkgGroup db.data_packages v' := mem_pkgGroup.mpr ⟨_, hp, rfl, rfl⟩
    have hm2 : pid' ∈ pkgGroup db.data_packages v' := mem_pkgGroup.mpr ⟨_, hp', rfl, rfl⟩
    have hd1 : pid ∉ (pkgGroup db.data_packages v').drop 1 := fun hmem =>
      hcond ⟨hcnt, hfe, hmem⟩
    have hd2 : pid' ∉ (pkgGroup db.data_packages v').drop 1 := fun hmem =>
      hcond' ⟨hcnt, hfe, hmem⟩
    have hh1 := eq_head_of_not_mem_drop hm1 hd1
    have hh2 := eq_head_of_not_mem_drop hm2 hd2
    rw [hh1] at hh2
    injection hh2 with hh
    exact hne (pkg_id_inj hnd hp hp' hh)


/-! ## Theorems: the reversal undoes a forward pass on double-colon-free stores -/

theorem restoreFk_noDC {v : Str} (hv : noDC v) : restoreFk v = v := by
  unfold restoreFk
  rw [hasSep_noDC hv]
  rfl

theorem restoreFk_derive {v : Str} (hv : noDC v) (r : Nat) : restoreFk (derive v r) = v := by
  unfold restoreFk
  rw [hasSep_derive]
  show stripAtSep (derive v r) = v
  exact stripAtSep_derive hv r

theorem dbEq {a b : DB} (h1 : a.euds = b.euds) (h2 : a.certificates = b.certificates)
    (h3 : a.data_packages = b.data_packages) : a = b := by
  cases a
  cases b
  simp only at h1 h2 h3
  rw [h1, h2, h3]

theorem downgrade_euds (db : DB) :
    (downgrade db).euds = db.euds.filter (fun e => ! hasSep e.uid) := rfl

theorem downgrade_certificates (db : DB) :
    (downgrade db).certificates
      = db.certificates.map (fun c => { c with eud_uid := c.eud_uid.map restoreFk }) := rfl

theorem downgrade_data_packages (db : DB) :
    (downgrade db).data_packages
      = db.data_packages.map (fun p => { p with creator_uid := p.creator_uid.map restoreFk }) := rfl

theorem certFinal_id (db : DB) (c : Certificate) : (certFinal db c).id = c.id := by
  obtain ⟨cid, fk⟩ := c
  cases fk with
  | none => rfl
  | some v =>
    by_cases hcond : 2 ≤ refCount (db.certificates.map (fun x => x.eud_uid)) v
        ∧ (findEud db.euds v).isSome = true
        ∧ cid ∈ (certGroup db.certificates v).drop 1
    · rw [certFinal_pos hcond]
    · rw [certFinal_neg hcond]

theorem pkgFinal_id (db : DB) (p : DataPackage) : (pkgFinal db p).id = p.id := by
  obtain ⟨pid, fk⟩ := p
  cases fk with
  | none => rfl
  | some v =>
    by_cases hcond : 2 ≤ refCount (db.data_packages.map (fun x => x.creator_uid)) v
        ∧ (findEud db.euds v).isSome = true
        ∧ pid ∈ (pkgGroup db.data_packages v).drop 1
    · rw [pkgFinal_pos hcond]
    · rw [pkgFinal_neg hcond]

theorem downgrade_upgrade_id {db : DB}
    (hndc : (db.certificates.map (fun c => c.id)).Nodup)
    (hndp : (db.data_packages.map (fun p => p.id)).Nodup)
    (hdc : ∀ c ∈ db.certificates, ∀ v ∈ c.eud_uid.toList, noDC v)
    (hdp : ∀ p ∈ db.data_packages, ∀ v ∈ p.creator_uid.toList, noDC v)
    (hdu : ∀ e ∈ db.euds, noDC e.uid) :
    downgrade (upgrade db) = db := by
  have hsfc : ∀ c ∈ db.certificates, ∀ v ∈ c.eud_uid.toList, hasSep v = false :=
    fun c hc v hv => hasSep_noDC (hdc c hc v hv)
  have hsfp : ∀ p ∈ db.data_packages, ∀ v ∈ p.creator_uid.toList, hasSep v = false :=
    fun p hp v hv => hasSep_noDC (hdp p hp v hv)
  refine dbEq ?_ ?_ ?_
  · rw [downgrade_euds]
    rcases upgrade_eudsOk db with ⟨l, hl, hml⟩
    rw [hl, List.filter_append]
    have h1 : db.euds.filter (fun e => ! hasSep e.uid) = db.euds := by
      rw [List.filter_eq_self]
      intro e he
      rw [hasSep_noDC (hdu e he)]
      rfl
    have h2 : l.filter (fun e => ! hasSep e.uid) = [] := by
      rw [List.filter_eq_nil_iff]
      intro x hx
      rcases hml x hx with ⟨a, b, hab⟩
      rw [hab, hasSep_derive]
      simp
    rw [h1, h2, List.append_nil]
  · rw [downgrade_certificates, upgrade_certificates hndc hsfc, List.map_map]
    refine (List.map_congr_left ?_).trans (List.map_id' _)
    intro c hc
    simp only [Function.comp_apply]
    obtain ⟨cid, fk⟩ := c
    cases fk with
    | none => rfl
    | some v =>
      have hv : noDC v := hdc _ hc v (by simp)
      by_cases hcond : 2 ≤ refCount (db.certificates.map (fun x => x.eud_uid)) v
          ∧ (findEud db.euds v).isSome = true
          ∧ cid ∈ (certGroup db.certificates v).drop 1
      · rw [certFinal_pos hcond]
        simp [restoreFk_derive hv]
      · rw [certFinal_neg hcond]
        simp [restoreFk_noDC hv]
  · rw [downgrade_data_packages, upgrade_data_packages hndp hsfp, List.map_map]
    refine (List.map_congr_left ?_).trans (List.map_id' _)
    intro p hp
    simp only [Function.comp_apply]
    obtain ⟨pid, fk⟩ := p
    cases fk with
    | none => rfl
    | some v =>
      have hv : noDC v := hdp _ hp v (by simp)
      by_cases hcond : 2 ≤ refCount (db.data_packages.map (fun x => x.creator_uid)) v
          ∧ (findEud db.euds v).isSome = true
          ∧ pid ∈ (pkgGroup db.data_packages v).drop 1
      · rw [pkgFinal_pos hcond]
        simp [restoreFk_derive hv]
      · rw [pkgFinal_neg hcond]
        simp [restoreFk_noDC hv]


/-! ## Theorems: a second forward pass finds nothing to do -/

theorem exists_pair_of_two_le_countP {α : Type} {p : α → Bool} {l : List α}
    (hnd : l.Nodup) (h : 2 ≤ l.countP p) :
    ∃ a ∈ l, ∃ b ∈ l, a ≠ b ∧ p a = true ∧ p b = true := by
  induction l with
  | nil => simp at h
  | cons x t ih =>
    rw [List.countP_cons] at h
    rcases List.nodup_cons.mp hnd with ⟨hx, ht⟩
    by_cases hpx : p x = true
    · rw [if_pos hpx] at h
      rcases List.countP_pos_iff.mp (show 0 < t.countP p by omega) with ⟨b, hb, hpb⟩
      exact ⟨x, List.mem_cons_self x t, b, List.mem_cons_of_mem x hb,
        fun he => hx (he ▸ hb), hpx, hpb⟩
    · rw [if_neg hpx] at h
      rcases ih ht (by omega) with ⟨a, ha, b, hb, hab, hpa, hpb⟩
      exact ⟨a, List.mem_cons_of_mem x ha, b, List.mem_cons_of_mem x hb, hab, hpa, hpb⟩

set_option maxHeartbeats 1000000 in
theorem upgrade_cert_dup_skip {db : DB}
    (hndc : (db.certificates.map (fun c => c.id)).Nodup)
    (hsfc : ∀ c ∈ db.certificates, ∀ v ∈ c.eud_uid.toList, hasSep v = false)
    {v : Str} (hv : v ∈ dupValues ((upgrade db).certificates.map (fun c => c.eud_uid))) :
    findEud (upgrade db).euds v = none := by
  have h2 := mem_dupValues.mp hv
  unfold refCount at h2
  rw [upgrade_certificates hndc hsfc, List.map_map, List.countP_map] at h2
  have hndrows : db.certificates.Nodup := List.Nodup.of_map _ hndc
  rcases exists_pair_of_two_le_countP hndrows h2 with ⟨c, hc, c', hc', hne, hpc, hpc'⟩
  simp only [Function.comp, decide_eq_true_eq] at hpc hpc'
  obtain ⟨cid, fk⟩ := c
  obtain ⟨cid', fk'⟩ := c'
  cases fk with
  | none => exact Option.noConfusion hpc
  | some w =>
  cases fk' with
  | none => exact Option.noConfusion hpc'
  | some w' =>
  by_cases hcond : 2 ≤ refCount (db.certificates.map (fun x => x.eud_uid)) w
      ∧ (findEud db.euds w).isSome = true
      ∧ cid ∈ (certGroup db.certificates w).drop 1
  all_goals by_cases hcond' : 2 ≤ refCount (db.certificates.map (fun x => x.eud_uid)) w'
      ∧ (findEud db.euds w').isSome = true
      ∧ cid' ∈ (certGroup db.certificates w').drop 1
  · rw [certFinal_pos hcond] at hpc
    rw [certFinal_pos hcond'] at hpc'
    injection hpc with hpc1
    injection hpc' with hpc1'
    have hd : derive w cid = derive w' cid' := by rw [hpc1, hpc1']
    rcases derive_injective hd with ⟨rfl, rfl⟩
    exact absurd (cert_id_inj hndc hc hc' rfl) hne
  · rw [certFinal_pos hcond] at hpc
    rw [certFinal_neg hcond'] at hpc'
    injection hpc with hpc1
    injection hpc' with hpc1'
    have hsw' : hasSep w' = false := hsfc _ hc' w' (by simp)
    rw [hpc1', ← hpc1, hasSep_derive] at hsw'
    exact Bool.noConfusion hsw'
  · rw [certFinal_neg hcond] at hpc
    rw [certFinal_pos hcond'] at hpc'
    injection hpc with hpc1
    injection hpc' with hpc1'
    have hsw : hasSep w = false := hsfc _ hc w (by simp)
    rw [hpc1, ← hpc1', hasSep_derive] at hsw
    exact Bool.noConfusion hsw
  · rw [certFinal_neg hcond] at hpc
    rw [certFinal_neg hcond'] at hpc'
    injection hpc with hpc1
    injection hpc' with hpc1'
    have hww : w' = w := by rw [hpc1, hpc1']
    subst hww
    subst hpc1
    have hcnt : 2 ≤ refCount (db.certificates.map (fun x => x.eud_uid)) w' := by
      unfold refCount
      rw [List.countP_map]
      exact two_le_countP_of_mem hc hc' hne (by simp) (by simp)
    have hsv : hasSep w' = false := hsfc _ hc w' (by simp)
    have hnone : findEud db.euds w' = none := by
      rcases hfind : findEud db.euds w' with _ | e
      · rfl
      · exfalso
        have hfe : (findEud db.euds w').isSome = true := by rw [hfind]; rfl
        have hm1 : cid ∈ certGroup db.certificates w' := mem_certGroup.mpr ⟨_, hc, rfl, rfl⟩
        have hm2 : cid' ∈ certGroup db.certificates w' := mem_certGroup.mpr ⟨_, hc', rfl, rfl⟩
        have hd1 : cid ∉ (certGroup db.certificates w').drop 1 := fun hmem =>
          hcond ⟨hcnt, hfe, hmem⟩
        have hd2 : cid' ∉ (certGroup db.certificates w').drop 1 := fun hmem =>
          hcond' ⟨hcnt, hfe, hmem⟩
        have hh1 := eq_head_of_not_mem_drop hm1 hd1
        have hh2 := eq_head_of_not_mem_drop hm2 hd2
        rw [hh1] at hh2
        injection hh2 with hh
        exact hne (cert_id_inj hndc hc hc' hh)
    rw [eudsOk_findEud (upgrade_eudsOk db) hsv, hnone]

set_option maxHeartbeats 1000000 in
theorem upgrade_pkg_dup_skip {db : DB}
    (hndp : (db.data_packages.map (fun p => p.id)).Nodup)
    (hsfp : ∀ p ∈ db.data_packages, ∀ v ∈ p.creator_uid.toList, hasSep v = false)
    {v : Str} (hv : v ∈ dupValues ((upgrade db).data_packages.map (fun p => p.creator_uid))) :
    findEud (upgrade db).euds v = none := by
  have h2 := mem_dupValues.mp hv
  unfold refCount at h2
  rw [upgrade_data_packages hndp hsfp, List.map_map, List.countP_map] at h2
  have hndrows : db.data_packages.Nodup := List.Nodup.of_map _ hndp
  rcases exists_pair_of_two_le_countP hndrows h2 with ⟨p, hp, p', hp', hne, hpp, hpp'⟩
  simp only [Function.comp, decide_eq_true_eq] at hpp hpp'
  obtain ⟨pid, fk⟩ := p
  obtain ⟨pid', fk'⟩ := p'
  cases fk with
  | none => exact Option.noConfusion hpp
  | some w =>
  cases fk' with
  | none => exact Option.noConfusion hpp'
  | some w' =>
  by_cases hcond : 2 ≤ refCount (db.data_packages.map (fun x => x.creator_uid)) w
      ∧ (findEud db.euds w).isSome = true
      ∧ pid ∈ (pkgGroup db.data_packages w).drop 1
  all_goals by_cases hcond' : 2 ≤ refCount (db.data_packages.map (fun x => x.creator_uid)) w'
      ∧ (findEud db.euds w').isSome = true
      ∧ pid' ∈ (pkgGroup db.data_packages w').drop 1
  · rw [pkgFinal_pos hcond] at hpp
    rw [pkgFinal_pos hcond'] at hpp'
    injection hpp with hpp1
    injection hpp' with hpp1'
    have hd : derive w pid = derive w' pid' := by rw [hpp1, hpp1']
    rcases derive_injective hd with ⟨rfl, rfl⟩
    exact absurd (pkg_id_inj hndp hp hp' rfl) hne
  · rw [pkgFinal_pos hcond] at hpp
    rw [pkgFinal_neg hcond'] at hpp'
    injection hpp with hpp1
    injection hpp' with hpp1'
    have hsw' : hasSep w' = false := hsfp _ hp' w' (by simp)
    rw [hpp1', ← hpp1, hasSep_derive] at hsw'
    exact Bool.noConfusion hsw'
  · rw [pkgFinal_neg hcond] at hpp
    rw [pkgFinal_pos hcond'] at hpp'
    injection hpp with hpp1
    injection hpp' with hpp1'
    have hsw : hasSep w = false := hsfp _ hp w (by simp)
    rw [hpp1, ← hpp1', hasSep_derive] at hsw
    exact Bool.noConfusion hsw
  · rw [pkgFinal_neg hcond] at hpp
    rw [pkgFinal_neg hcond'] at hpp'
    injection hpp with hpp1
    injection hpp' with hpp1'
    have hww : w' = w := by rw [hpp1, hpp1']
    subst hww
    subst hpp1
    have hcnt : 2 ≤ refCount (db.data_packages.map (fun x => x.creator_uid)) w' := by
      unfold refCount
      rw [List.countP_map]
      exact two_le_countP_of_mem hp hp' hne (by simp) (by simp)
    have hsv : hasSep w' = false := hsfp _ hp w' (by simp)
    have hnone : findEud db.euds w' = none := by
      rcases hfind : findEud db.euds w' with _ | e
      · rfl
      · exfalso
        have hfe : (findEud db.euds w').isSome = true := by rw [hfind]; rfl
        have hm1 : pid ∈ pkgGroup db.data_packages w' := mem_pkgGroup.mpr ⟨_, hp, rfl, rfl⟩
        have hm2 : pid' ∈ pkgGroup db.data_packages w' := mem_pkgGroup.mpr ⟨_, hp', rfl, rfl⟩
        have hd1 : pid ∉ (pkgGroup db.data_packages w').drop 1 := fun hmem =>
          hcond ⟨hcnt, hfe, hmem⟩
        have hd2 : pid' ∉ (pkgGroup db.data_packages w').drop 1 := fun hmem =>
          hcond' ⟨hcnt, hfe, hmem⟩
        have hh1 := eq_head_of_not_mem_drop hm1 hd1
        have hh2 := eq_head_of_not_mem_drop hm2 hd2
        rw [hh1] at hh2
        injection hh2 with hh
        exact hne (pkg_id_inj hndp hp hp' hh)
    rw [eudsOk_findEud (upgrade_eudsOk db) hsv, hnone]

theorem certFold_skip_all (db : DB) :
    ∀ gs : List (Str × List Nat), (∀ g ∈ gs, findEud db.euds g.1 = none) →
      gs.foldl processCertGroup db = db := by
  intro gs
  induction gs with
  | nil => intro _; rfl
  | cons g gs ih =>
    intro h
    rw [List.foldl_cons, processCertGroup_skip (h g (List.mem_cons_self g gs))]
    exact ih fun g' hg' => h g' (List.mem_cons_of_mem g hg')

theorem pkgFold_skip_all (db : DB) :
    ∀ gs : List (Str × List Nat), (∀ g ∈ gs, findEud db.euds g.1 = none) →
      gs.foldl processPkgGroup db = db := by
  intro gs
  induction gs with
  | nil => intro _; rfl
  | cons g gs ih =>
    intro h
    rw [List.foldl_cons, processPkgGroup_skip (h g (List.mem_cons_self g gs))]
    exact ih fun g' hg' => h g' (List.mem_cons_of_mem g hg')

theorem upgrade_idem {db : DB}
    (hndc : (db.certificates.map (fun c => c.id)).Nodup)
    (hndp : (db.data_packages.map (fun p => p.id)).Nodup)
    (hsfc : ∀ c ∈ db.certificates, ∀ v ∈ c.eud_uid.toList, hasSep v = false)
    (hsfp : ∀ p ∈ db.data_packages, ∀ v ∈ p.creator_uid.toList, hasSep v = false) :
    upgrade (upgrade db) = upgrade db := by
  have hcert : certPhase (upgrade db) = upgrade db := by
    refine certFold_skip_all (upgrade db) (certGroups (upgrade db).certificates) ?_
    intro g hg
    rcases List.mem_map.mp hg with ⟨v, hv, rfl⟩
    exact upgrade_cert_dup_skip hndc hsfc hv
  have hpkg : pkgPhase (upgrade db) = upgrade db := by
    refine pkgFold_skip_all (upgrade db) (pkgGroups (upgrade db).data_packages) ?_
    intro g hg
    rcases List.mem_map.mp hg with ⟨v, hv, rfl⟩
    exact upgrade_pkg_dup_skip hndp hsfp hv
  show pkgPhase (certPhase (upgrade db)) = upgrade db
  rw [hcert, hpkg]


/-! ## Theorems: the statement trace of the forward pass -/

theorem opsWF_append {l₁ : List MigOp} :
    ∀ {db : DB} {l₂ : List MigOp},
      OpsWellFormed db (l₁ ++ l₂)
        ↔ OpsWellFormed db l₁ ∧ OpsWellFormed (l₁.foldl applyOp db) l₂ := by
  induction l₁ with
  | nil =>
    intro db l₂
    simp [OpsWellFormed]
  | cons op t ih =>
    intro db l₂
    show (_ ∧ OpsWellFormed (applyOp db op) (t ++ l₂)) ↔
      (_ ∧ OpsWellFormed (applyOp db op) t) ∧ _
    rw [ih, List.foldl_cons]
    exact and_assoc.symm

theorem findEud_insert_self (l : List Eud) (e : Eud) :
    (findEud (l ++ [e]) e.uid).isSome = true := by
  rw [findEud_append, Option.isSome_or]
  have h : findEud [e] e.uid = some e := by
    unfold findEud
    rw [List.find?_cons_of_pos _ (by simp)]
  rw [h]
  simp

theorem findEud_mono_append {l l' : List Eud} {v : Str}
    (h : (findEud l v).isSome = true) : (findEud (l ++ l') v).isSome = true := by
  rw [findEud_append, Option.isSome_or, h]
  rfl

theorem certOpsList_exec (e : Eud) (v : Str) (ids : List Nat) :
    ∀ db : DB,
      ((ids.flatMap (fun c =>
          [MigOp.addEud (cloneEud e (derive v c)), MigOp.certFk c (derive v c)])).foldl
        applyOp db)
      = ids.foldl (certCloneStep e v) db := by
  induction ids with
  | nil => intro db; rfl
  | cons i is ih =>
    intro db
    rw [List.flatMap_cons, List.foldl_append, List.foldl_cons, ih]
    rfl

theorem certOpsList_wf (e : Eud) (v : Str) (ids : List Nat) :
    ∀ db : DB,
      OpsWellFormed db
        (ids.flatMap (fun c =>
          [MigOp.addEud (cloneEud e (derive v c)), MigOp.certFk c (derive v c)])) := by
  induction ids with
  | nil => intro db; trivial
  | cons i is ih =>
    intro db
    rw [List.flatMap_cons]
    refine ⟨trivial, ?_, ?_⟩
    · show (findEud (db.euds ++ [cloneEud e (derive v i)]) (derive v i)).isSome = true
      exact findEud_insert_self db.euds (cloneEud e (derive v i))
    · exact ih _

theorem certGroupOps_exec (db : DB) (g : Str × List Nat) :
    (certGroupOps db g).foldl applyOp db = processCertGroup db g := by
  unfold certGroupOps processCertGroup
  cases h : findEud db.euds g.1 with
  | none => rfl
  | some e => exact certOpsList_exec e g.1 (g.2.drop 1) db

theorem certGroupOps_wf (db : DB) (g : Str × List Nat) :
    OpsWellFormed db (certGroupOps db g) := by
  unfold certGroupOps
  cases h : findEud db.euds g.1 with
  | none => trivial
  | some e => exact certOpsList_wf e g.1 (g.2.drop 1) db

theorem pkgGroupOpsAux_cons (e : Eud) (v : Str) (db : DB) (i : Nat) (is : List Nat) :
    pkgGroupOpsAux e v db (i :: is)
      = (match findEud db.euds (derive v i) with
         | some _ => [MigOp.pkgFk i (derive v i)]
         | none => [MigOp.addEud (cloneEud e (derive v i)), MigOp.pkgFk i (derive v i)]) ++
        pkgGroupOpsAux e v (pkgCloneStep e v db i) is := rfl

theorem pkgCloneStep_of_found {e : Eud} {v : Str} {db : DB} {i : Nat} {x : Eud}
    (h : findEud db.euds (derive v i) = some x) :
    pkgCloneStep e v db i = setPkgUid db i (derive v i) := by
  unfold pkgCloneStep
  rw [h]

theorem pkgCloneStep_of_missing {e : Eud} {v : Str} {db : DB} {i : Nat}
    (h : findEud db.euds (derive v i) = none) :
    pkgCloneStep e v db i
      = setPkgUid (insertEud db (cloneEud e (derive v i))) i (derive v i) := by
  unfold pkgCloneStep
  rw [h]

theorem pkgOpsAux_exec (e : Eud) (v : Str) (ids : List Nat) :
    ∀ db : DB,
      (pkgGroupOpsAux e v db ids).foldl applyOp db = ids.foldl (pkgCloneStep e v) db := by
  induction ids with
  | nil => intro db; rfl
  | cons i is ih =>
    intro db
    rw [pkgGroupOpsAux_cons]
    cases hfind : findEud db.euds (derive v i) with
    | some x =>
      simp only [hfind]
      rw [List.foldl_append, List.foldl_cons, List.foldl_nil,
        show applyOp db (MigOp.pkgFk i (derive v i)) = setPkgUid db i (derive v i) from rfl,
        ← pkgCloneStep_of_found hfind, ih (pkgCloneStep e v db i), List.foldl_cons]
    | none =>
      simp only [hfind]
      rw [List.foldl_append, List.foldl_cons, List.foldl_cons, List.foldl_nil,
        show applyOp (applyOp db (MigOp.addEud (cloneEud e (derive v i))))
            (MigOp.pkgFk i (derive v i))
          = setPkgUid (insertEud db (cloneEud e (derive v i))) i (derive v i) from rfl,
        ← pkgCloneStep_of_missing hfind, ih (pkgCloneStep e v db i), List.foldl_cons]

theorem pkgOpsAux_wf (e : Eud) (v : Str) (ids : List Nat) :
    ∀ db : DB, OpsWellFormed db (pkgGroupOpsAux e v db ids) := by
  induction ids with
  | nil => intro db; trivial
  | cons i is ih =>
    intro db
    rw [pkgGroupOpsAux_cons]
    cases hfind : findEud db.euds (derive v i) with
    | some x =>
      simp only [hfind]
      rw [opsWF_append]
      constructor
      · exact ⟨show (findEud db.euds (derive v i)).isSome = true by rw [hfind]; rfl, trivial⟩
      · rw [List.foldl_cons, List.foldl_nil,
          show applyOp db (MigOp.pkgFk i (derive v i)) = setPkgUid db i (derive v i) from rfl,
          ← pkgCloneStep_of_found hfind]
        exact ih _
    | none =>
      simp only [hfind]
      rw [opsWF_append]
      constructor
      · refine ⟨trivial, ?_, trivial⟩
        show (findEud (db.euds ++ [cloneEud e (derive v i)]) (derive v i)).isSome = true
        exact findEud_insert_self db.euds (cloneEud e (derive v i))
      · rw [List.foldl_cons, List.foldl_cons, List.foldl_nil,
          show applyOp (applyOp db (MigOp.addEud (cloneEud e (derive v i))))
              (MigOp.pkgFk i (derive v i))
            = setPkgUid (insertEud db (cloneEud e (derive v i))) i (derive v i) from rfl,
          ← pkgCloneStep_of_missing hfind]
        exact ih _

theorem pkgGroupOps_exec (db : DB) (g : Str × List Nat) :
    (pkgGroupOps db g).foldl applyOp db = processPkgGroup db g := by
  unfold pkgGroupOps processPkgGroup
  cases h : findEud db.euds g.1 with
  | none => rfl
  | some e => exact pkgOpsAux_exec e g.1 (g.2.drop 1) db

theorem pkgGroupOps_wf (db : DB) (g : Str × List Nat) :
    OpsWellFormed db (pkgGroupOps db g) := by
  unfold pkgGroupOps
  cases h : findEud db.euds g.1 with
  | none => trivial
  | some e => exact pkgOpsAux_wf e g.1 (g.2.drop 1) db

theorem certPhaseOpsAux_exec (gs : List (Str × List Nat)) :
    ∀ db : DB, (certPhaseOpsAux db gs).foldl applyOp db = gs.foldl processCertGroup db := by
  induction gs with
  | nil => intro db; rfl
  | cons g gs ih =>
    intro db
    rw [certPhaseOpsAux, List.foldl_append, certGroupOps_exec, ih, List.foldl_cons]

theorem certPhaseOpsAux_wf (gs : List (Str × List Nat)) :
    ∀ db : DB, OpsWellFormed db (certPhaseOpsAux db gs) := by
  induction gs with
  | nil => intro db; trivial
  | cons g gs ih =>
    intro db
    rw [certPhaseOpsAux, opsWF_append]
    exact ⟨certGroupOps_wf db g, by rw [certGroupOps_exec]; exact ih _⟩

theorem pkgPhaseOpsAux_exec (gs : List (Str × List Nat)) :
    ∀ db : DB, (pkgPhaseOpsAux db gs).foldl applyOp db = gs.foldl processPkgGroup db := by
  induction gs with
  | nil => intro db; rfl
  | cons g gs ih =>
    intro db
    rw [pkgPhaseOpsAux, List.foldl_append, pkgGroupOps_exec, ih, List.foldl_cons]

theorem pkgPhaseOpsAux_wf (gs : List (Str × List Nat)) :
    ∀ db : DB, OpsWellFormed db (pkgPhaseOpsAux db gs) := by
  induction gs with
  | nil => intro db; trivial
  | cons g gs ih =>
    intro db
    rw [pkgPhaseOpsAux, opsWF_append]
    exact ⟨pkgGroupOps_wf db g, by rw [pkgGroupOps_exec]; exact ih _⟩

theorem upgradeOps_exec (db : DB) : (upgradeOps db).foldl applyOp db = upgrade db := by
  unfold upgradeOps
  rw [List.foldl_append]
  rw [show certPhaseOps db = certPhaseOpsAux db (certGroups db.certificates) from rfl,
    certPhaseOpsAux_exec]
  rw [show (certGroups db.certificates).foldl processCertGroup db = certPhase db from rfl]
  rw [show pkgPhaseOps (certPhase db)
      = pkgPhaseOpsAux (certPhase db) (pkgGroups (certPhase db).data_packages) from rfl,
    pkgPhaseOpsAux_exec]
  rfl

theorem upgradeOps_wf (db : DB) : OpsWellFormed db (upgradeOps db) := by
  unfold upgradeOps
  rw [opsWF_append]
  constructor
  · exact certPhaseOpsAux_wf _ db
  · rw [show certPhaseOps db = certPhaseOpsAux db (certGroups db.certificates) from rfl,
      certPhaseOpsAux_exec]
    exact pkgPhaseOpsAux_wf _ _


/-! ## Theorems: no statement ever leaves a dangling clone reference -/

theorem danglingFree_applyOp {db : DB} {op : MigOp}
    (hdf : danglingFree db = true) (hop : OpsWellFormed db [op]) :
    danglingFree (applyOp db op) = true := by
  unfold danglingFree at hdf ⊢
  rw [Bool.and_eq_true, List.all_eq_true, List.all_eq_true] at hdf
  rw [Bool.and_eq_true, List.all_eq_true, List.all_eq_true]
  obtain ⟨hdc, hdp⟩ := hdf
  cases op with
  | addEud e =>
    constructor
    · intro c hc
      have hcert : (applyOp db (MigOp.addEud e)).certificates = db.certificates := rfl
      rw [hcert] at hc
      have := hdc c hc
      cases hfk : c.eud_uid with
      | none => simp [hfk]
      | some v =>
        rw [hfk] at this
        simp only [Bool.or_eq_true] at this ⊢
        rcases this with h | h
        · exact Or.inl h
        · refine Or.inr ?_
          show (findEud (db.euds ++ [e]) v).isSome = true
          exact findEud_mono_append h
    · intro p hp
      have hpkg : (applyOp db (MigOp.addEud e)).data_packages = db.data_packages := rfl
      rw [hpkg] at hp
      have := hdp p hp
      cases hfk : p.creator_uid with
      | none => simp [hfk]
      | some v =>
        rw [hfk] at this
        simp only [Bool.or_eq_true] at this ⊢
        rcases this with h | h
        · exact Or.inl h
        · refine Or.inr ?_
          show (findEud (db.euds ++ [e]) v).isSome = true
          exact findEud_mono_append h
  | certFk i u =>
    have hu : (findEud db.euds u).isSome = true := hop.1
    constructor
    · intro c' hc'
      have hcert : (applyOp db (MigOp.certFk i u)).certificates
          = db.certificates.map
              (fun c => if c.id = i then { c with eud_uid := some u } else c) := rfl
      rw [hcert] at hc'
      rcases List.mem_map.mp hc' with ⟨c, hc, rfl⟩
      have heuds : (applyOp db (MigOp.certFk i u)).euds = db.euds := rfl
      rw [heuds]
      by_cases hid : c.id = i
      · rw [if_pos hid]
        simp only [Bool.or_eq_true]
        exact Or.inr hu
      · rw [if_neg hid]
        have := hdc c hc
        cases hfk : c.eud_uid with
        | none => simp [hfk]
        | some v =>
          rw [hfk] at this
          exact this
    · intro p hp
      have hpkg : (applyOp db (MigOp.certFk i u)).data_packages = db.data_packages := rfl
      have heuds : (applyOp db (MigOp.certFk i u)).euds = db.euds := rfl
      rw [hpkg] at hp
      rw [heuds]
      have := hdp p hp
      cases hfk : p.creator_uid with
      | none => simp [hfk]
      | some v =>
        rw [hfk] at this
        exact this
  | pkgFk i u =>
    have hu : (findEud db.euds u).isSome = true := hop.1
    constructor
    · intro c hc
      have hcert : (applyOp db (MigOp.pkgFk i u)).certificates = db.certificates := rfl
      have heuds : (applyOp db (MigOp.pkgFk i u)).euds = db.euds := rfl
      rw [hcert] at hc
      rw [heuds]
      have := hdc c hc
      cases hfk : c.eud_uid with
      | none => simp [hfk]
      | some v =>
        rw [hfk] at this
        exact this
    · intro p' hp'
      have hpkg : (applyOp db (MigOp.pkgFk i u)).data_packages
          = db.data_packages.map
              (fun p => if p.id = i then { p with creator_uid := some u } else p) := rfl
      rw [hpkg] at hp'
      rcases List.mem_map.mp hp' with ⟨p, hp, rfl⟩
      have heuds : (applyOp db (MigOp.pkgFk i u)).euds = db.euds := rfl
      rw [heuds]
      by_cases hid : p.id = i
      · rw [if_pos hid]
        simp only [Bool.or_eq_true]
        exact Or.inr hu
      · rw [if_neg hid]
        have := hdp p hp
        cases hfk : p.creator_uid with
        | none => simp [hfk]
        | some v =>
          rw [hfk] at this
          exact this

theorem opsWF_take_danglingFree {ops : List MigOp} :
    ∀ {db : DB}, OpsWellFormed db ops → danglingFree db = true →
      ∀ n, danglingFree ((ops.take n).foldl applyOp db) = true := by
  induction ops with
  | nil =>
    intro db _ hdf n
    simpa using hdf
  | cons op t ih =>
    intro db hwf hdf n
    cases n with
    | zero => simpa using hdf
    | succ m =>
      rw [List.take_succ_cons, List.foldl_cons]
      exact ih hwf.2 (danglingFree_applyOp hdf ⟨hwf.1, trivial⟩) m


/-! ## Theorems: keepers, duplicate tails, and the clone inventory -/

theorem certGroup_mem_drop_iff {certs : List Certificate}
    (hnd : (certs.map (fun c => c.id)).Nodup) {c : Certificate} {v : Str}
    (hc : c ∈ certs) (hcv : c.eud_uid = some v) :
    c.id ∈ (certGroup certs v).drop 1
      ↔ ∃ c' ∈ certs, c'.eud_uid = some v ∧ c'.id < c.id := by
  have hmem : c.id ∈ certGroup certs v := mem_certGroup.mpr ⟨c, hc, hcv, rfl⟩
  have hsorted := certGroup_sorted certs v
  have hnodup := certGroup_nodup hnd v
  cases hg : certGroup certs v with
  | nil => rw [hg] at hmem; cases hmem
  | cons g₀ rest =>
    rw [hg] at hmem hsorted hnodup
    rw [List.drop_one, List.tail_cons]
    rcases List.sorted_cons.mp hsorted with ⟨hmin, _⟩
    rcases List.nodup_cons.mp hnodup with ⟨hg₀, _⟩
    constructor
    · intro hi
      have hg₀mem : g₀ ∈ certGroup certs v := by rw [hg]; exact List.mem_cons_self _ _
      rcases mem_certGroup.mp hg₀mem with ⟨c₀, hc₀, hv₀, hid₀⟩
      refine ⟨c₀, hc₀, hv₀, ?_⟩
      rw [hid₀]
      have hle := hmin _ hi
      have hne : g₀ ≠ c.id := fun he => hg₀ (he ▸ hi)
      omega
    · rintro ⟨c', hc', hv', hlt⟩
      have hmem' : c'.id ∈ certGroup certs v := mem_certGroup.mpr ⟨c', hc', hv', rfl⟩
      rw [hg] at hmem'
      rcases List.mem_cons.mp hmem with hcg | hin
      · exfalso
        rcases List.mem_cons.mp hmem' with hcg' | hin'
        · omega
        · have := hmin _ hin'
          omega
      · exact hin

theorem pkgGroup_mem_drop_iff {pkgs : List DataPackage}
    (hnd : (pkgs.map (fun p => p.id)).Nodup) {p : DataPackage} {v : Str}
    (hp : p ∈ pkgs) (hpv : p.creator_uid = some v) :
    p.id ∈ (pkgGroup pkgs v).drop 1
      ↔ ∃ p' ∈ pkgs, p'.creator_uid = some v ∧ p'.id < p.id := by
  have hmem : p.id ∈ pkgGroup pkgs v := mem_pkgGroup.mpr ⟨p, hp, hpv, rfl⟩
  have hsorted := pkgGroup_sorted pkgs v
  have hnodup := pkgGroup_nodup hnd v
  cases hg : pkgGroup pkgs v with
  | nil => rw [hg] at hmem; cases hmem
  | cons g₀ rest =>
    rw [hg] at hmem hsorted hnodup
    rw [List.drop_one, List.tail_cons]
    rcases List.sorted_cons.mp hsorted with ⟨hmin, _⟩
    rcases List.nodup_cons.mp hnodup with ⟨hg₀, _⟩
    constructor
    · intro hi
      have hg₀mem : g₀ ∈ pkgGroup pkgs v := by rw [hg]; exact List.mem_cons_self _ _
      rcases mem_pkgGroup.mp hg₀mem with ⟨p₀, hp₀, hv₀, hid₀⟩
      refine ⟨p₀, hp₀, hv₀, ?_⟩
      rw [hid₀]
      have hle := hmin _ hi
      have hne : g₀ ≠ p.id := fun he => hg₀ (he ▸ hi)
      omega
    · rintro ⟨p', hp', hv', hlt⟩
      have hmem' : p'.id ∈ pkgGroup pkgs v := mem_pkgGroup.mpr ⟨p', hp', hv', rfl⟩
      rw [hg] at hmem'
      rcases List.mem_cons.mp hmem with hpg | hin
      · exfalso
        rcases List.mem_cons.mp hmem' with hpg' | hin'
        · omega
        · have := hmin _ hin'
          omega
      · exact hin

theorem cloneInv_base {db : DB} (hdu : ∀ x ∈ db.euds, hasSep x.uid = false) :
    cloneInv db db.euds := by
  intro x hx a b hab
  exfalso
  have := hdu x hx
  rw [hab, hasSep_derive] at this
  exact Bool.noConfusion this

theorem certFold_c7 (db : DB) (vs : List Str) (hsf : ∀ v ∈ vs, hasSep v = false) :
    ∀ db', EudsOk db.euds db'.euds → cloneInv db db'.euds →
      cloneInv db
          (((vs.map (fun v => (v, certGroup db.certificates v))).foldl
            processCertGroup db').euds)
        ∧ ∀ v ∈ vs, ∀ e, findEud db.euds v = some e →
            ∀ i ∈ (certGroup db.certificates v).drop 1,
              cloneEud e (derive v i) ∈
                ((vs.map (fun v => (v, certGroup db.certificates v))).foldl
                  processCertGroup db').euds := by
  induction vs with
  | nil =>
    intro db' _ hinv
    exact ⟨hinv, by intro v hv; cases hv⟩
  | cons v vs ih =>
    intro db' hok hinv
    have hsfv : hasSep v = false := hsf v (List.mem_cons_self v vs)
    have hsf' : ∀ w ∈ vs, hasSep w = false := fun w hw => hsf w (List.mem_cons_of_mem v hw)
    rw [List.map_cons, List.foldl_cons]
    have hfind : findEud db'.euds v = findEud db.euds v := eudsOk_findEud hok hsfv
    cases hdb : findEud db.euds v with
    | none =>
      have hskip : processCertGroup db' (v, certGroup db.certificates v) = db' :=
        processCertGroup_skip (by rw [show (v, certGroup db.certificates v).1 = v from rfl,
          hfind, hdb])
      rw [hskip]
      rcases ih hsf' db' hok hinv with ⟨h1, h2⟩
      refine ⟨h1, ?_⟩
      intro w hw e he i hi
      rcases List.mem_cons.mp hw with rfl | hw'
      · rw [hdb] at he
        exact Option.noConfusion he
      · exact h2 w hw' e he i hi
    | some e =>
      have hrun : processCertGroup db' (v, certGroup db.certificates v)
          = ((certGroup db.certificates v).drop 1).foldl (certCloneStep e v) db' :=
        processCertGroup_run (by rw [show (v, certGroup db.certificates v).1 = v from rfl,
          hfind, hdb])
      rw [hrun]
      set db'' := ((certGroup db.certificates v).drop 1).foldl (certCloneStep e v) db' with hdb''
      have heuds'' : db''.euds
          = db'.euds ++ ((certGroup db.certificates v).drop 1).map
              (fun i => cloneEud e (derive v i)) := certInner_euds e v _ db'
      have hok'' : EudsOk db.euds db''.euds := by
        refine eudsOk_trans hok ⟨_, heuds'', ?_⟩
        intro x hx
        rcases List.mem_map.mp hx with ⟨i, _, rfl⟩
        exact ⟨v, i, rfl⟩
      have hinv'' : cloneInv db db''.euds := by
        intro x hx a b hab
        rw [heuds''] at hx
        rcases List.mem_append.mp hx with hx' | hx'
        · exact hinv x hx' a b hab
        · rcases List.mem_map.mp hx' with ⟨i, _, rfl⟩
          have : derive v i = derive a b := hab
          rcases derive_injective this with ⟨rfl, rfl⟩
          exact ⟨e, hdb, rfl⟩
      rcases ih hsf' db'' hok'' hinv'' with ⟨h1, h2⟩
      refine ⟨h1, ?_⟩
      intro w hw e' he' i hi
      rcases List.mem_cons.mp hw with rfl | hw'
      · have heq : e' = e := by
          rw [hdb] at he'
          injection he' with h
          exact h.symm
        rw [heq]
        have hxm : cloneEud e (derive w i) ∈ db''.euds := by
          rw [heuds'']
          refine List.mem_append_right _ (List.mem_map.mpr ⟨i, hi, rfl⟩)
        exact eudsOk_mem (certFold_eudsOk _ db'') hxm
      · exact h2 w hw' e' he' i hi

theorem pkgInner_c7 (db0 : DB) (e : Eud) (w : Str) (he : findEud db0.euds w = some e)
    (ids : List Nat) :
    ∀ db, cloneInv db0 db.euds →
      cloneInv db0 ((ids.foldl (pkgCloneStep e w) db).euds)
        ∧ ∀ i ∈ ids, cloneEud e (derive w i) ∈ ((ids.foldl (pkgCloneStep e w) db).euds) := by
  induction ids with
  | nil =>
    intro db hinv
    exact ⟨hinv, by intro i hi; cases hi⟩
  | cons i is ih =>
    intro db hinv
    rw [List.foldl_cons]
    have hrest : ∀ s : DB, EudsOk s.euds ((is.foldl (pkgCloneStep e w) s).euds) := by
      intro s
      rcases pkgInner_euds e w is s with ⟨l, hl, hml⟩
      refine ⟨l, hl, ?_⟩
      intro x hx
      rcases hml x hx with ⟨j, _, rfl⟩
      exact ⟨w, j, rfl⟩
    cases hfind : findEud db.euds (derive w i) with
    | some x =>
      have hstep : pkgCloneStep e w db i = setPkgUid db i (derive w i) :=
        pkgCloneStep_of_found hfind
      have heuds : (pkgCloneStep e w db i).euds = db.euds := by rw [hstep]; rfl
      have hxmem : x ∈ db.euds := by
        have := List.mem_of_find?_eq_some hfind
        exact this
      have hxuid : x.uid = derive w i := by
        have := List.find?_some hfind
        simpa using this
      rcases hinv x hxmem w i hxuid with ⟨e', he'0, hxe⟩
      have hee : e' = e := by
        rw [he] at he'0
        injection he'0 with h
        exact h.symm
      rw [hee] at hxe
      have hinv' : cloneInv db0 (pkgCloneStep e w db i).euds := by rw [heuds]; exact hinv
      rcases ih (pkgCloneStep e w db i) hinv' with ⟨h1, h2⟩
      refine ⟨h1, ?_⟩
      intro j hj
      rcases List.mem_cons.mp hj with rfl | hj'
      · have : cloneEud e (derive w j) ∈ (pkgCloneStep e w db j).euds := by
          rw [heuds, ← hxe]
          exact hxmem
        exact eudsOk_mem (hrest _) this
      · exact h2 j hj'
    | none =>
      have hstep : pkgCloneStep e w db i
          = setPkgUid (insertEud db (cloneEud e (derive w i))) i (derive w i) :=
        pkgCloneStep_of_missing hfind
      have heuds : (pkgCloneStep e w db i).euds = db.euds ++ [cloneEud e (derive w i)] := by
        rw [hstep]; rfl
      have hinv' : cloneInv db0 (pkgCloneStep e w db i).euds := by
        rw [heuds]
        intro x hx a b hab
        rcases List.mem_append.mp hx with hx' | hx'
        · exact hinv x hx' a b hab
        · rcases List.mem_singleton.mp hx' with rfl
          have : derive w i = derive a b := hab
          rcases derive_injective this with ⟨rfl, rfl⟩
          exact ⟨e, he, rfl⟩
      rcases ih (pkgCloneStep e w db i) hinv' with ⟨h1, h2⟩
      refine ⟨h1, ?_⟩
      intro j hj
      rcases List.mem_cons.mp hj with rfl | hj'
      · have : cloneEud e (derive w j) ∈ (pkgCloneStep e w db j).euds := by
          rw [heuds]
          exact List.mem_append_right _ (List.mem_singleton.mpr rfl)
        exact eudsOk_mem (hrest _) this
      · exact h2 j hj'


theorem pkgFold_c7 (db : DB) (vs : List Str) (hsf : ∀ v ∈ vs, hasSep v = false) :
    ∀ db', EudsOk db.euds db'.euds → cloneInv db db'.euds →
      ∀ w ∈ vs, ∀ e, findEud db.euds w = some e →
        ∀ i ∈ (pkgGroup db.data_packages w).drop 1,
          cloneEud e (derive w i) ∈
            ((vs.map (fun v => (v, pkgGroup db.data_packages v))).foldl
              processPkgGroup db').euds := by
  induction vs with
  | nil =>
    intro db' _ _ w hw
    cases hw
  | cons v vs ih =>
    intro db' hok hinv
    have hsfv : hasSep v = false := hsf v (List.mem_cons_self v vs)
    have hsf' : ∀ u ∈ vs, hasSep u = false := fun u hu => hsf u (List.mem_cons_of_mem v hu)
    rw [List.map_cons, List.foldl_cons]
    have hfind : findEud db'.euds v = findEud db.euds v := eudsOk_findEud hok hsfv
    intro w hw e he i hi
    cases hdb : findEud db.euds v with
    | none =>
      have hskip : processPkgGroup db' (v, pkgGroup db.data_packages v) = db' :=
        processPkgGroup_skip (by rw [show (v, pkgGroup db.data_packages v).1 = v from rfl,
          hfind, hdb])
      rw [hskip]
      rcases List.mem_cons.mp hw with rfl | hw'
      · rw [hdb] at he
        exact Option.noConfusion he
      · exact ih hsf' db' hok hinv w hw' e he i hi
    | some e₀ =>
      have hrun : processPkgGroup db' (v, pkgGroup db.data_packages v)
          = ((pkgGroup db.data_packages v).drop 1).foldl (pkgCloneStep e₀ v) db' :=
        processPkgGroup_run (by rw [show (v, pkgGroup db.data_packages v).1 = v from rfl,
          hfind, hdb])
      rw [hrun]
      set db'' := ((pkgGroup db.data_packages v).drop 1).foldl (pkgCloneStep e₀ v) db'
        with hdb''
      have hok'' : EudsOk db.euds db''.euds := by
        rcases pkgInner_euds e₀ v ((pkgGroup db.data_packages v).drop 1) db' with ⟨l, hl, hml⟩
        refine eudsOk_trans hok ⟨l, hl, ?_⟩
        intro x hx
        rcases hml x hx with ⟨j, _, rfl⟩
        exact ⟨v, j, rfl⟩
      have hinv'' : cloneInv db db''.euds :=
        (pkgInner_c7 db e₀ v hdb ((pkgGroup db.data_packages v).drop 1) db' hinv).1
      rcases List.mem_cons.mp hw with rfl | hw'
      · have heq : e = e₀ := by
          rw [hdb] at he
          injection he with h
          exact h.symm
        rw [heq]
        have hxm : cloneEud e₀ (derive w i) ∈ db''.euds :=
          (pkgInner_c7 db e₀ w hdb ((pkgGroup db.data_packages w).drop 1) db' hinv).2 i hi
        exact eudsOk_mem (pkgFold_eudsOk _ db'') hxm
      · exact ih hsf' db'' hok'' hinv'' w hw' e he i hi

theorem certFold_euds_strong (db : DB) (vs : List Str)
    (hsf : ∀ v ∈ vs, hasSep v = false) :
    ∀ db', EudsOk db.euds db'.euds →
      ∃ l, ((vs.map (fun v => (v, certGroup db.certificates v))).foldl
            processCertGroup db').euds = db'.euds ++ l
        ∧ ∀ x ∈ l, ∃ a b, x.uid = derive a b ∧ hasSep a = false
            ∧ (findEud db.euds a).isSome = true := by
  induction vs with
  | nil =>
    intro db' _
    exact ⟨[], by simp, by simp⟩
  | cons v vs ih =>
    intro db' hok
    have hsfv : hasSep v = false := hsf v (List.mem_cons_self v vs)
    have hsf' : ∀ w ∈ vs, hasSep w = false := fun w hw => hsf w (List.mem_cons_of_mem v hw)
    rw [List.map_cons, List.foldl_cons]
    have hfind : findEud db'.euds v = findEud db.euds v := eudsOk_findEud hok hsfv
    cases hdb : findEud db.euds v with
    | none =>
      have hskip : processCertGroup db' (v, certGroup db.certificates v) = db' :=
        processCertGroup_skip (by rw [show (v, certGroup db.certificates v).1 = v from rfl,
          hfind, hdb])
      rw [hskip]
      exact ih hsf' db' hok
    | some e =>
      have hrun : processCertGroup db' (v, certGroup db.certificates v)
          = ((certGroup db.certificates v).drop 1).foldl (certCloneStep e v) db' :=
        processCertGroup_run (by rw [show (v, certGroup db.certificates v).1 = v from rfl,
          hfind, hdb])
      rw [hrun]
      set db'' := ((certGroup db.certificates v).drop 1).foldl (certCloneStep e v) db'
        with hdb''
      have heuds'' : db''.euds
          = db'.euds ++ ((certGroup db.certificates v).drop 1).map
              (fun i => cloneEud e (derive v i)) := certInner_euds e v _ db'
      have hnew : ∀ x ∈ ((certGroup db.certificates v).drop 1).map
          (fun i => cloneEud e (derive v i)),
          ∃ a b, x.uid = derive a b ∧ hasSep a = false
            ∧ (findEud db.euds a).isSome = true := by
        intro x hx
        rcases List.mem_map.mp hx with ⟨i, _, rfl⟩
        exact ⟨v, i, rfl, hsfv, by rw [hdb]; rfl⟩
      have hok'' : EudsOk db.euds db''.euds := by
        refine eudsOk_trans hok ⟨_, heuds'', ?_⟩
        intro x hx
        rcases hnew x hx with ⟨a, b, hab, _, _⟩
        exact ⟨a, b, hab⟩
      rcases ih hsf' db'' hok'' with ⟨l, hl, hml⟩
      refine ⟨((certGroup db.certificates v).drop 1).map
          (fun i => cloneEud e (derive v i)) ++ l, ?_, ?_⟩
      · rw [hl, heuds'', List.append_assoc]
      · intro x hx
        rcases List.mem_append.mp hx with hx' | hx'
        · exact hnew x hx'
        · exact hml x hx'

theorem pkgFold_euds_strong (db : DB) (vs : List Str)
    (hsf : ∀ v ∈ vs, hasSep v = false) :
    ∀ db', EudsOk db.euds db'.euds →
      ∃ l, ((vs.map (fun v => (v, pkgGroup db.data_packages v))).foldl
            processPkgGroup db').euds = db'.euds ++ l
        ∧ ∀ x ∈ l, ∃ a b, x.uid = derive a b ∧ hasSep a = false
            ∧ (findEud db.euds a).isSome = true := by
  induction vs with
  | nil =>
    intro db' _
    exact ⟨[], by simp, by simp⟩
  | cons v vs ih =>
    intro db' hok
    have hsfv : hasSep v = false := hsf v (List.mem_cons_self v vs)
    have hsf' : ∀ w ∈ vs, hasSep w = false := fun w hw => hsf w (List.mem_cons_of_mem v hw)
    rw [List.map_cons, List.foldl_cons]
    have hfind : findEud db'.euds v = findEud db.euds v := eudsOk_findEud hok hsfv
    cases hdb : findEud db.euds v with
    | none =>
      have hskip : processPkgGroup db' (v, pkgGroup db.data_packages v) = db' :=
        processPkgGroup_skip (by rw [show (v, pkgGroup db.data_packages v).1 = v from rfl,
          hfind, hdb])
      rw [hskip]
      exact ih hsf' db' hok
    | some e =>
      have hrun : processPkgGroup db' (v, pkgGroup db.data_packages v)
          = ((pkgGroup db.data_packages v).drop 1).foldl (pkgCloneStep e v) db' :=
        processPkgGroup_run (by rw [show (v, pkgGroup db.data_packages v).1 = v from rfl,
          hfind, hdb])
      rw [hrun]
      set db'' := ((pkgGroup db.data_packages v).drop 1).foldl (pkgCloneStep e v) db'
        with hdb''
      rcases pkgInner_euds e v ((pkgGroup db.data_packages v).drop 1) db' with ⟨l₀, hl₀, hml₀⟩
      have hnew : ∀ x ∈ l₀,
          ∃ a b, x.uid = derive a b ∧ hasSep a = false
            ∧ (findEud db.euds a).isSome = true := by
        intro x hx
        rcases hml₀ x hx with ⟨i, _, rfl⟩
        exact ⟨v, i, rfl, hsfv, by rw [hdb]; rfl⟩
      have hok'' : EudsOk db.euds db''.euds := by
        refine eudsOk_trans hok ⟨l₀, hl₀, ?_⟩
        intro x hx
        rcases hnew x hx with ⟨a, b, hab, _, _⟩
        exact ⟨a, b, hab⟩
      rcases ih hsf' db'' hok'' with ⟨l, hl, hml⟩
      refine ⟨l₀ ++ l, ?_, ?_⟩
      · rw [hl, hl₀, List.append_assoc]
      · intro x hx
        rcases List.mem_append.mp hx with hx' | hx'
        · exact hnew x hx'
        · exact hml x hx'

theorem dupValues_sepFree_cert {db : DB}
    (hsfc : ∀ c ∈ db.certificates, ∀ v ∈ c.eud_uid.toList, hasSep v = false) :
    ∀ v ∈ dupValues (db.certificates.map (fun c => c.eud_uid)), hasSep v = false := by
  intro v hv
  have h2 := mem_dupValues.mp hv
  have hpos : 0 < refCount (db.certificates.map (fun c => c.eud_uid)) v := by omega
  rcases List.countP_pos_iff.mp hpos with ⟨f, hf, hfv⟩
  simp only [decide_eq_true_eq] at hfv
  rcases List.mem_map.mp hf with ⟨c, hc, hcf⟩
  exact hsfc c hc v (by simp [hcf, hfv])

theorem dupValues_sepFree_pkg {db : DB}
    (hsfp : ∀ p ∈ db.data_packages, ∀ v ∈ p.creator_uid.toList, hasSep v = false) :
    ∀ v ∈ dupValues (db.data_packages.map (fun p => p.creator_uid)), hasSep v = false := by
  intro v hv
  have h2 := mem_dupValues.mp hv
  have hpos : 0 < refCount (db.data_packages.map (fun p => p.creator_uid)) v := by omega
  rcases List.countP_pos_iff.mp hpos with ⟨f, hf, hfv⟩
  simp only [decide_eq_true_eq] at hfv
  rcases List.mem_map.mp hf with ⟨p, hp, hpf⟩
  exact hsfp p hp v (by simp [hpf, hfv])

theorem upgrade_euds_strong {db : DB}
    (hsfc : ∀ c ∈ db.certificates, ∀ v ∈ c.eud_uid.toList, hasSep v = false)
    (hsfp : ∀ p ∈ db.data_packages, ∀ v ∈ p.creator_uid.toList, hasSep v = false) :
    ∃ l, (upgrade db).euds = db.euds ++ l
      ∧ ∀ x ∈ l, ∃ a b, x.uid = derive a b ∧ (findEud db.euds a).isSome = true := by
  rcases certFold_euds_strong db _ (dupValues_sepFree_cert hsfc) db (eudsOk_refl _)
    with ⟨l₁, hl₁, hml₁⟩
  have hcp : (certPhase db).euds = db.euds ++ l₁ := hl₁
  have hframe : (certPhase db).data_packages = db.data_packages := certPhase_data_packages db
  have hsfp₁ : ∀ v ∈ dupValues ((certPhase db).data_packages.map (fun p => p.creator_uid)),
      hasSep v = false := by
    rw [hframe]
    exact dupValues_sepFree_pkg hsfp
  rcases pkgFold_euds_strong (certPhase db) _ hsfp₁ (certPhase db) (eudsOk_refl _)
    with ⟨l₂, hl₂, hml₂⟩
  refine ⟨l₁ ++ l₂, ?_, ?_⟩
  · show (pkgPhase (certPhase db)).euds = db.euds ++ (l₁ ++ l₂)
    have hpp : (pkgPhase (certPhase db)).euds = (certPhase db).euds ++ l₂ := hl₂
    rw [hpp, hcp, List.append_assoc]
  · intro x hx
    rcases List.mem_append.mp hx with hx' | hx'
    · rcases hml₁ x hx' with ⟨a, b, hab, _, hsome⟩
      exact ⟨a, b, hab, hsome⟩
    · rcases hml₂ x hx' with ⟨a, b, hab, hsa, hsome⟩
      rw [eudsOk_findEud (certPhase_eudsOk db) hsa] at hsome
      exact ⟨a, b, hab, hsome⟩


/-! ## Theorems: clones of processed groups are present afterwards -/

theorem upgrade_cert_clone_mem {db : DB}
    (hsfc : ∀ c ∈ db.certificates, ∀ w ∈ c.eud_uid.toList, hasSep w = false)
    (hsfu : ∀ x ∈ db.euds, hasSep x.uid = false)
    {v : Str} {e : Eud} (he : findEud db.euds v = some e)
    (hv2 : 2 ≤ refCount (db.certificates.map (fun c => c.eud_uid)) v)
    {i : Nat} (hi : i ∈ (certGroup db.certificates v).drop 1) :
    cloneEud e (derive v i) ∈ (upgrade db).euds := by
  have h := (certFold_c7 db _ (dupValues_sepFree_cert hsfc) db (eudsOk_refl _)
    (cloneInv_base hsfu)).2 v (mem_dupValues.mpr hv2) e he i hi
  exact eudsOk_mem (pkgPhase_eudsOk _) h

theorem upgrade_pkg_clone_mem {db : DB}
    (hsfc : ∀ c ∈ db.certificates, ∀ w ∈ c.eud_uid.toList, hasSep w = false)
    (hsfp : ∀ p ∈ db.data_packages, ∀ w ∈ p.creator_uid.toList, hasSep w = false)
    (hsfu : ∀ x ∈ db.euds, hasSep x.uid = false)
    {v : Str} {e : Eud} (he : findEud db.euds v = some e)
    (hv2 : 2 ≤ refCount (db.data_packages.map (fun p => p.creator_uid)) v)
    {i : Nat} (hi : i ∈ (pkgGroup db.data_packages v).drop 1) :
    cloneEud e (derive v i) ∈ (upgrade db).euds := by
  have hinv₁ : cloneInv db (certPhase db).euds :=
    (certFold_c7 db _ (dupValues_sepFree_cert hsfc) db (eudsOk_refl _)
      (cloneInv_base hsfu)).1
  have hok₁ : EudsOk db.euds (certPhase db).euds := certPhase_eudsOk db
  have hfr : (certPhase db).data_packages = db.data_packages := certPhase_data_packages db
  have hm := pkgFold_c7 db (dupValues (db.data_packages.map (fun p => p.creator_uid)))
    (dupValues_sepFree_pkg hsfp) (certPhase db) hok₁ hinv₁ v (mem_dupValues.mpr hv2) e he i hi
  show cloneEud e (derive v i) ∈ (pkgPhase (certPhase db)).euds
  unfold pkgPhase
  rw [show pkgGroups (certPhase db).data_packages
      = (dupValues (db.data_packages.map (fun p => p.creator_uid))).map
          (fun v => (v, pkgGroup db.data_packages v)) by unfold pkgGroups; rw [hfr]]
  exact hm


/-! ## Claims -/

/-- C1, counterexample: on a store where two certificates share `'E'` but the
`euds` row `'E'` is missing, the forward pass leaves both certificates on
`'E'`, so the final foreign keys of the certificates relation are not unique
— the claim's "on any initial store state" fails. -/
theorem claim_C1_cx :
    ¬ uniqueFks ((upgrade exMissingEud).certificates.map (fun c => c.eud_uid)) := by
  decide

/-- C1 (amended): if row ids are unique within each relation, no pre-existing
foreign-key value contains `'::dup::'`, and every duplicated foreign-key
value has a matching `euds` row, then after the forward pass every non-null
foreign-key value is held by at most one row in each relation. -/
theorem claim_C1 (db : DB)
    (hndc : (db.certificates.map (fun c => c.id)).Nodup)
    (hndp : (db.data_packages.map (fun p => p.id)).Nodup)
    (hsfc : ∀ c ∈ db.certificates, ∀ v ∈ c.eud_uid.toList, hasSep v = false)
    (hsfp : ∀ p ∈ db.data_packages, ∀ v ∈ p.creator_uid.toList, hasSep v = false)
    (hdec : ∀ v ∈ dupValues (db.certificates.map (fun c => c.eud_uid)),
      (findEud db.euds v).isSome = true)
    (hdep : ∀ v ∈ dupValues (db.data_packages.map (fun p => p.creator_uid)),
      (findEud db.euds v).isSome = true) :
    uniqueFks ((upgrade db).certificates.map (fun c => c.eud_uid))
      ∧ uniqueFks ((upgrade db).data_packages.map (fun p => p.creator_uid)) := by
  constructor
  · intro u
    unfold refCount
    rw [upgrade_certificates hndc hsfc, List.map_map, List.countP_map]
    refine countP_le_one_of_pairwise ?_
    have hrows : db.certificates.Nodup := List.Nodup.of_map _ hndc
    refine List.Pairwise.imp_of_mem ?_ hrows
    intro a b ha hb hne hand
    rcases hand with ⟨h1, h2⟩
    simp only [Function.comp, decide_eq_true_eq] at h1 h2
    exact certFinal_uniq hndc hsfc hdec ha hb hne h1 h2
  · intro u
    unfold refCount
    rw [upgrade_data_packages hndp hsfp, List.map_map, List.countP_map]
    refine countP_le_one_of_pairwise ?_
    have hrows : db.data_packages.Nodup := List.Nodup.of_map _ hndp
    refine List.Pairwise.imp_of_mem ?_ hrows
    intro a b ha hb hne hand
    rcases hand with ⟨h1, h2⟩
    simp only [Function.comp, decide_eq_true_eq] at h1 h2
    exact pkgFinal_uniq hndp hsfp hdep ha hb hne h1 h2

/-- C1 witness at a concrete well-formed store. -/
theorem claim_C1_witness :
    uniqueFks ((upgrade exClean).certificates.map (fun c => c.eud_uid))
      ∧ uniqueFks ((upgrade exClean).data_packages.map (fun p => p.creator_uid)) :=
  claim_C1 exClean (by decide) (by decide) (by decide) (by decide) (by decide) (by decide)

/-- C2, counterexample: the store `exBoundary` satisfies the claim's
hypothesis (no pre-existing uid or foreign-key value contains `'::dup::'`),
yet the reversal does not restore the foreign keys: the value `'A::dup:'`
plus the appended separator contains `'::dup::'` starting inside the
original value, so truncation at the first occurrence returns `'A'`. -/
theorem claim_C2_cx :
    (∀ e ∈ exBoundary.euds, hasSep e.uid = false)
      ∧ (∀ c ∈ exBoundary.certificates, ∀ v ∈ c.eud_uid.toList, hasSep v = false)
      ∧ (∀ p ∈ exBoundary.data_packages, ∀ v ∈ p.creator_uid.toList, hasSep v = false)
      ∧ downgrade (upgrade exBoundary) ≠ exBoundary := by
  decide

/-- C2 (amended): for stores with unique row ids per relation in which no
pre-existing endpoint uid and no pre-existing foreign-key value contains two
adjacent colons `'::'`, the reversal after a forward pass restores the store
exactly (foreign keys restored, every clone deleted, no pre-existing `euds`
row deleted). -/
theorem claim_C2 (db : DB)
    (hndc : (db.certificates.map (fun c => c.id)).Nodup)
    (hndp : (db.data_packages.map (fun p => p.id)).Nodup)
    (hdc : ∀ c ∈ db.certificates, ∀ v ∈ c.eud_uid.toList, noDC v)
    (hdp : ∀ p ∈ db.data_packages, ∀ v ∈ p.creator_uid.toList, noDC v)
    (hdu : ∀ e ∈ db.euds, noDC e.uid) :
    downgrade (upgrade db) = db :=
  downgrade_upgrade_id hndc hndp hdc hdp hdu

/-- C2 witness at a concrete well-formed store. -/
theorem claim_C2_witness : downgrade (upgrade exClean) = exClean :=
  claim_C2 exClean (by decide) (by decide) (by decide) (by decide) (by decide)

/-- C3: on the failing input `exMissingEud` (a duplicate group whose shared
endpoint row is missing) the forward pass silently skips the whole group —
the store is returned unchanged and no error of any kind is raised — whereas
the specification requires a fatal `NotFoundError` for that group.  The
`if eud_row:` guard at lines 126 and 203 of the migration has no else
branch, so the code contradicts the spec's stated failure semantics. -/
theorem claim_C3 : upgrade exMissingEud = exMissingEud := by
  decide

/-- C4: on `exPreDerived` an endpoint with the derived uid `'E::dup::2'`
already exists, yet the certificates path inserts a second row with that
uid: the claim's "the existence check precedes every insert of a clone" is
false for the certificates path (only the data_packages path checks, lines
208–214; the certificates insert at lines 132–161 is unconditional).  On a
real database with a unique uid this insert would fail. -/
theorem claim_C4 :
    ((upgrade exPreDerived).euds.countP
      (fun e => decide (e.uid = derive ['E'] 2))) = 2 := by
  decide

/-- C5, counterexample: on `exCrossPhase` the first forward pass creates the
endpoint `'X::dup::5'` (for the duplicated data_packages group) that the
certificates pass had found missing; the second run therefore processes the
certificates group it previously skipped and inserts one more clone, so the
second run is not a no-op. -/
theorem claim_C5_cx :
    (upgrade (upgrade exCrossPhase)).euds.length ≠ (upgrade exCrossPhase).euds.length := by
  decide

/-- C5 (amended): if row ids are unique within each relation and no
pre-existing foreign-key value contains `'::dup::'`, running the forward
pass twice equals running it once — the second run creates no clones and
changes nothing (and, the model being total, raises no error). -/
theorem claim_C5 (db : DB)
    (hndc : (db.certificates.map (fun c => c.id)).Nodup)
    (hndp : (db.data_packages.map (fun p => p.id)).Nodup)
    (hsfc : ∀ c ∈ db.certificates, ∀ v ∈ c.eud_uid.toList, hasSep v = false)
    (hsfp : ∀ p ∈ db.data_packages, ∀ v ∈ p.creator_uid.toList, hasSep v = false) :
    upgrade (upgrade db) = upgrade db :=
  upgrade_idem hndc hndp hsfc hsfp

/-- C5 witness at a concrete well-formed store. -/
theorem claim_C5_witness : upgrade (upgrade exClean) = upgrade exClean :=
  claim_C5 exClean (by decide) (by decide) (by decide) (by decide)

/-- C6: the clone-identifier derivation `(o, r) ↦ o ++ '::dup::' ++ r` (with
`r` the decimal rendering of the integer record id) is injective. -/
theorem claim_C6 (o₁ : Str) (r₁ : Nat) (o₂ : Str) (r₂ : Nat)
    (h : derive o₁ r₁ = derive o₂ r₂) : o₁ = o₂ ∧ r₁ = r₂ :=
  derive_injective h

/-- C6 witness at a concrete pair. -/
theorem claim_C6_witness : (['E'] : Str) = ['E'] ∧ 7 = 7 :=
  claim_C6 ['E'] 7 ['E'] 7 rfl

/-- C7, counterexample: in the duplicate group for `'E'` on `exMissingEud`
(records 1 and 2) the endpoint row is missing, so record 2 is *not*
repointed to `'E::dup::2'` — it still holds `'E'` — refuting the claim's
"for every duplicate group". -/
theorem claim_C7_cx :
    (⟨2, some (derive ['E'] 2)⟩ : Certificate) ∉ (upgrade exMissingEud).certificates
      ∧ (⟨2, some ['E']⟩ : Certificate) ∈ (upgrade exMissingEud).certificates := by
  decide

/-- C7 (amended): for every duplicate group whose shared endpoint row
exists, on stores with unique row ids and separator-free pre-existing uids
and foreign keys: the record with the lowest id keeps its foreign key
unchanged, and every record with a smaller groupmate is repointed to the
uid derived from its own id, with a clone of the original endpoint under
that uid present in the final `euds` table; this holds in both relations. -/
theorem claim_C7 (db : DB) (v : Str) (e : Eud)
    (hndc : (db.certificates.map (fun c => c.id)).Nodup)
    (hndp : (db.data_packages.map (fun p => p.id)).Nodup)
    (hsfc : ∀ c ∈ db.certificates, ∀ w ∈ c.eud_uid.toList, hasSep w = false)
    (hsfp : ∀ p ∈ db.data_packages, ∀ w ∈ p.creator_uid.toList, hasSep w = false)
    (hsfu : ∀ x ∈ db.euds, hasSep x.uid = false)
    (he : findEud db.euds v = some e) :
    (∀ c ∈ db.certificates, c.eud_uid = some v →
      ((∀ c' ∈ db.certificates, c'.eud_uid = some v → c.id ≤ c'.id) →
        c ∈ (upgrade db).certificates)
      ∧ ((∃ c' ∈ db.certificates, c'.eud_uid = some v ∧ c'.id < c.id) →
        { c with eud_uid := some (derive v c.id) } ∈ (upgrade db).certificates
          ∧ cloneEud e (derive v c.id) ∈ (upgrade db).euds))
    ∧ (∀ p ∈ db.data_packages, p.creator_uid = some v →
      ((∀ p' ∈ db.data_packages, p'.creator_uid = some v → p.id ≤ p'.id) →
        p ∈ (upgrade db).data_packages)
      ∧ ((∃ p' ∈ db.data_packages, p'.creator_uid = some v ∧ p'.id < p.id) →
        { p with creator_uid := some (derive v p.id) } ∈ (upgrade db).data_packages
          ∧ cloneEud e (derive v p.id) ∈ (upgrade db).euds)) := by
  constructor
  · intro c hc hcv
    constructor
    · intro hmin
      rw [upgrade_certificates hndc hsfc]
      refine List.mem_map.mpr ⟨c, hc, ?_⟩
      have hnd : c.id ∉ (certGroup db.certificates v).drop 1 := by
        rw [certGroup_mem_drop_iff hndc hc hcv]
        rintro ⟨c', hc', hv', hlt⟩
        have := hmin c' hc' hv'
        omega
      obtain ⟨cid, fk⟩ := c
      cases fk with
      | none => exact Option.noConfusion hcv
      | some w =>
        injection hcv with hw
        subst hw
        exact certFinal_neg fun hcond => hnd hcond.2.2
    · rintro ⟨c', hc', hv', hlt⟩
      have hne : c ≠ c' := fun h => absurd (h ▸ hlt) (lt_irrefl _)
      have hcnt : 2 ≤ refCount (db.certificates.map (fun x => x.eud_uid)) v := by
        unfold refCount
        rw [List.countP_map]
        exact two_le_countP_of_mem hc hc' hne (by simp [hcv]) (by simp [hv'])
      have hdrop : c.id ∈ (certGroup db.certificates v).drop 1 :=
        (certGroup_mem_drop_iff hndc hc hcv).mpr ⟨c', hc', hv', hlt⟩
      constructor
      · rw [upgrade_certificates hndc hsfc]
        refine List.mem_map.mpr ⟨c, hc, ?_⟩
        obtain ⟨cid, fk⟩ := c
        cases fk with
        | none => exact Option.noConfusion hcv
        | some w =>
          injection hcv with hw
          subst hw
          exact certFinal_pos ⟨hcnt, by rw [he]; rfl, hdrop⟩
      · exact upgrade_cert_clone_mem hsfc hsfu he hcnt hdrop
  · intro p hp hpv
    constructor
    · intro hmin
      rw [upgrade_data_packages hndp hsfp]
      refine List.mem_map.mpr ⟨p, hp, ?_⟩
      have hnd : p.id ∉ (pkgGroup db.data_packages v).drop 1 := by
        rw [pkgGroup_mem_drop_iff hndp hp hpv]
        rintro ⟨p', hp', hv', hlt⟩
        have := hmin p' hp' hv'
        omega
      obtain ⟨pid, fk⟩ := p
      cases fk with
      | none => exact Option.noConfusion hpv
      | some w =>
        injection hpv with hw
        subst hw
        exact pkgFinal_neg fun hcond => hnd hcond.2.2
    · rintro ⟨p', hp', hv', hlt⟩
      have hne : p ≠ p' := fun h => absurd (h ▸ hlt) (lt_irrefl _)
      have hcnt : 2 ≤ refCount (db.data_packages.map (fun x => x.creator_uid)) v := by
        unfold refCount
        rw [List.countP_map]
        exact two_le_countP_of_mem hp hp' hne (by simp [hpv]) (by simp [hv'])
      have hdrop : p.id ∈ (pkgGroup db.data_packages v).drop 1 :=
        (pkgGroup_mem_drop_iff hndp hp hpv).mpr ⟨p', hp', hv', hlt⟩
      constructor
      · rw [upgrade_data_packages hndp hsfp]
        refine List.mem_map.mpr ⟨p, hp, ?_⟩
        obtain ⟨pid, fk⟩ := p
        cases fk with
        | none => exact Option.noConfusion hpv
        | some w =>
          injection hpv with hw
          subst hw
          exact pkgFinal_pos ⟨hcnt, by rw [he]; rfl, hdrop⟩
      · exact upgrade_pkg_clone_mem hsfc hsfp hsfu he hcnt hdrop

/-- C7 witness: on the concrete store `exClean`, certificate 2 is repointed
to `'E::dup::2'` and a clone of the `'E'` endpoint under that uid exists. -/
theorem claim_C7_witness :
    (⟨2, some (derive ['E'] 2)⟩ : Certificate) ∈ (upgrade exClean).certificates
      ∧ cloneEud (mkEud ['E']) (derive ['E'] 2) ∈ (upgrade exClean).euds := by
  have h := claim_C7 exClean ['E'] (mkEud ['E']) (by decide) (by decide) (by decide)
    (by decide) (by decide) (by decide)
  have h2 := (h.1 ⟨2, some ['E']⟩ (by decide) rfl).2
    ⟨⟨1, some ['E']⟩, by decide, rfl, by decide⟩
  exact h2

/-- C8: every foreign-key update in the statement sequence of the forward
pass executes in a state in which the target uid already has an `euds` row
(the clone insert always takes effect first); consequently, starting from
any store with no dangling clone-form reference, every intermediate state of
the statement sequence is free of dangling clone-form references.  The first
conjunct ties the statement sequence to `upgrade` itself. -/
theorem claim_C8 (db : DB) :
    ((upgradeOps db).foldl applyOp db = upgrade db)
      ∧ OpsWellFormed db (upgradeOps db)
      ∧ (danglingFree db = true →
          ∀ n, danglingFree (((upgradeOps db).take n).foldl applyOp db) = true) :=
  ⟨upgradeOps_exec db, upgradeOps_wf db,
   fun hdf n => opsWF_take_danglingFree (upgradeOps_wf db) hdf n⟩

/-- C8 witness at a concrete store and prefix length. -/
theorem claim_C8_witness :
    danglingFree exClean = true
      ∧ danglingFree (((upgradeOps exClean).take 2).foldl applyOp exClean) = true :=
  ⟨by decide, (claim_C8 exClean).2.2 (by decide) 2⟩

/-- C9: when the shared endpoint row of a duplicate group is missing at that
group's cloning time, the forward pass (on stores with unique row ids and
separator-free pre-existing foreign keys) leaves every record of that group
unchanged — positionally, so nothing is reordered or deleted — and adds no
`euds` row whose uid is derived from the group's value; the model raises no
error (upgrade is a total function) and the other groups are processed as
usual.  The first conjunct covers certificates groups, whose cloning time is
the initial state; the second covers data_packages groups, whose cloning
time is the state the certificates pass leaves behind. -/
theorem claim_C9 (db : DB) (v : Str)
    (hndc : (db.certificates.map (fun c => c.id)).Nodup)
    (hndp : (db.data_packages.map (fun p => p.id)).Nodup)
    (hsfc : ∀ c ∈ db.certificates, ∀ w ∈ c.eud_uid.toList, hasSep w = false)
    (hsfp : ∀ p ∈ db.data_packages, ∀ w ∈ p.creator_uid.toList, hasSep w = false) :
    (findEud db.euds v = none →
      List.Forall₂ (fun c c' => c'.id = c.id ∧ (c.eud_uid = some v → c' = c))
          db.certificates (upgrade db).certificates
        ∧ ∀ k : Nat, ∀ x ∈ (upgrade db).euds, x.uid = derive v k → x ∈ db.euds)
      ∧ (findEud (certPhase db).euds v = none →
        List.Forall₂ (fun p p' => p'.id = p.id ∧ (p.creator_uid = some v → p' = p))
            db.data_packages (upgrade db).data_packages
          ∧ ∀ k : Nat, ∀ x ∈ (upgrade db).euds,
              x.uid = derive v k → x ∈ (certPhase db).euds) := by
  constructor
  · intro hnone
    constructor
    · rw [upgrade_certificates hndc hsfc, List.forall₂_map_right_iff, List.forall₂_same]
      intro c hc
      refine ⟨certFinal_id db c, ?_⟩
      intro hcv
      obtain ⟨cid, fk⟩ := c
      cases fk with
      | none => exact Option.noConfusion hcv
      | some w =>
        injection hcv with hw
        subst hw
        refine certFinal_neg ?_
        rintro ⟨_, hsome, _⟩
        rw [hnone] at hsome
        exact Bool.noConfusion hsome
    · rcases upgrade_euds_strong hsfc hsfp with ⟨l, hl, hml⟩
      intro k x hx hxk
      rw [hl] at hx
      rcases List.mem_append.mp hx with hx' | hx'
      · exact hx'
      · exfalso
        rcases hml x hx' with ⟨a, b, hab, hsome⟩
        rw [hxk] at hab
        rcases derive_injective hab with ⟨rfl, _⟩
        rw [hnone] at hsome
        exact Bool.noConfusion hsome
  · intro hnone
    constructor
    · rw [upgrade_data_packages hndp hsfp, List.forall₂_map_right_iff, List.forall₂_same]
      intro p hp
      refine ⟨pkgFinal_id db p, ?_⟩
      intro hpv
      have hsv : hasSep v = false := hsfp p hp v (by rw [hpv]; simp)
      have hnone₀ : findEud db.euds v = none := by
        rw [← eudsOk_findEud (certPhase_eudsOk db) hsv]
        exact hnone
      obtain ⟨pid, fk⟩ := p
      cases fk with
      | none => exact Option.noConfusion hpv
      | some w =>
        injection hpv with hw
        subst hw
        refine pkgFinal_neg ?_
        rintro ⟨_, hsome, _⟩
        rw [hnone₀] at hsome
        exact Bool.noConfusion hsome
    · have hframe : (certPhase db).data_packages = db.data_packages :=
        certPhase_data_packages db
      have hsfp₁ : ∀ w ∈ dupValues ((certPhase db).data_packages.map
          (fun p => p.creator_uid)), hasSep w = false := by
        rw [hframe]
        exact dupValues_sepFree_pkg hsfp
      rcases pkgFold_euds_strong (certPhase db) _ hsfp₁ (certPhase db) (eudsOk_refl _)
        with ⟨l₂, hl₂, hml₂⟩
      have hpp : (upgrade db).euds = (certPhase db).euds ++ l₂ := hl₂
      intro k x hx hxk
      rw [hpp] at hx
      rcases List.mem_append.mp hx with hx' | hx'
      · exact hx'
      · exfalso
        rcases hml₂ x hx' with ⟨a, b, hab, _, hsome⟩
        rw [hxk] at hab
        rcases derive_injective hab with ⟨rfl, _⟩
        rw [hnone] at hsome
        exact Bool.noConfusion hsome

/-- C9 witness at a concrete store where both relations hold a duplicate
group for `'E'` and the endpoint row is missing at both cloning times. -/
theorem claim_C9_witness :
    (List.Forall₂ (fun c c' => c'.id = c.id ∧ (c.eud_uid = some ['E'] → c' = c))
        exMissingBoth.certificates (upgrade exMissingBoth).certificates
      ∧ ∀ k : Nat, ∀ x ∈ (upgrade exMissingBoth).euds,
          x.uid = derive ['E'] k → x ∈ exMissingBoth.euds)
    ∧ (List.Forall₂ (fun p p' => p'.id = p.id ∧ (p.creator_uid = some ['E'] → p' = p))
        exMissingBoth.data_packages (upgrade exMissingBoth).data_packages
      ∧ ∀ k : Nat, ∀ x ∈ (upgrade exMissingBoth).euds,
          x.uid = derive ['E'] k → x ∈ (certPhase exMissingBoth).euds) :=
  ⟨(claim_C9 exMissingBoth ['E'] (by decide) (by decide) (by decide) (by decide)).1
      (by decide),
   (claim_C9 exMissingBoth ['E'] (by decide) (by decide) (by decide) (by decide)).2
      (by decide)⟩

/-- C10: the reversal is purely syntactic on the separator token: it deletes
exactly the `euds` rows whose uid contains `'::dup::'` (including rows that
predate any forward pass), rewrites both foreign-key columns row-by-row with
`restoreFk`, and `restoreFk` truncates any separator-bearing value strictly
before the *first* occurrence of the separator (so the doubly-suffixed
`'E1::dup::2::dup::3'` becomes `'E1'` in one pass) while leaving
separator-free values untouched. -/
theorem claim_C10 (db : DB) :
    ((downgrade db).euds = db.euds.filter (fun e => ! hasSep e.uid)
        ∧ ∀ x ∈ db.euds, sep <:+: x.uid → x ∉ (downgrade db).euds)
      ∧ ((downgrade db).certificates
            = db.certificates.map (fun c => { c with eud_uid := c.eud_uid.map restoreFk })
          ∧ (downgrade db).data_packages
            = db.data_packages.map
                (fun p => { p with creator_uid := p.creator_uid.map restoreFk }))
      ∧ (∀ v a b : Str, v = a ++ sep ++ b →
          ∃ b₂, v = restoreFk v ++ sep ++ b₂
            ∧ ∀ a₂ b₃ : Str, v = a₂ ++ sep ++ b₃ → (restoreFk v).length ≤ a₂.length)
      ∧ (∀ v : Str, ¬ sep <:+: v → restoreFk v = v)
      ∧ restoreFk (derive (derive ['E', '1'] 2) 3) = ['E', '1'] := by
  refine ⟨⟨rfl, ?_⟩, ⟨rfl, rfl⟩, ?_, ?_, ?_⟩
  · intro x hx hsep hmem
    rw [downgrade_euds] at hmem
    rcases List.mem_filter.mp hmem with ⟨_, hp⟩
    rw [hasSep_iff.mpr hsep] at hp
    exact Bool.noConfusion hp
  · intro v a b hsplit
    have hhs : hasSep v = true := hasSep_iff.mpr ⟨a, b, hsplit.symm⟩
    have hr : restoreFk v = stripAtSep v := by
      unfold restoreFk
      rw [hhs]
      rfl
    rcases hfp : firstSepPos v with _ | p
    · exfalso
      rw [hasSep, hfp] at hhs
      exact Bool.noConfusion hhs
    · have hsas : stripAtSep v = v.take p := by
        unfold stripAtSep
        rw [hfp]
      rcases split_of_firstSepPos hfp with ⟨hsp, hlen⟩
      refine ⟨v.drop (p + 7), ?_, ?_⟩
      · rw [hr, hsas]
        exact hsp.symm
      · intro a₂ b₃ hsplit₂
        have hle := firstSepPos_min hfp (isPrefixOf_drop_of_split hsplit₂)
        rw [hr, hsas, hlen]
        exact hle
  · intro v hnin
    have hhs : hasSep v = false := by
      cases hh : hasSep v
      · rfl
      · exact absurd (hasSep_iff.mp hh) hnin
    unfold restoreFk
    rw [hhs]
    rfl
  · decide

/-- C10 witness: a derived-form endpoint row that predates any forward pass
is deleted by the reversal. -/
theorem claim_C10_witness :
    mkEud (derive ['E'] 2) ∉ (downgrade exPreDerived).euds :=
  (claim_C10 exPreDerived).1.2 (mkEud (derive ['E'] 2)) (by decide) (by decide)

end OTS
